import Mathlib

/-! Directory-scoped review permission (permission.go).

A shallow embedding of `hasPermission`, `isOwnerOfSig`, `getFiles`,
`decodeSigInfoFile` and `decodeOwnerFile`.

* Go's `(bool, error)` results are pairs `Bool × Option GoError`, a `nil` error being `none`.
* The collaborators (`bot.cli`, `bot.cacheCli`) are fields holding functions; a call that
  yields a non-nil error is `Except.error`.
* Library functions the code calls (`strings.ToLower`, `base64.StdEncoding.DecodeString`,
  `yaml.Unmarshal`, `filepath.Dir`, `models.Path.Dir`) are the fields of `GoLib`; the theorems
  hold for every such library, and `stdLib` is one concrete library used for the examples.
* `sets.String` is a duplicate-free list of strings; only `Insert`, `Has`, `Delete` and the
  length are ever observed by the code.
* Logging is not modelled: it does not influence any returned value.
-/

set_option autoImplicit false
set_option linter.dupNamespace false

namespace Permission

/-! ## Data model -/

/-- Go error values, identified by their message; `nil` is `none : Option GoError`. -/
abbrev GoError := String

/-- Byte slices: one natural number below 256 per byte. -/
abbrev Bytes := List Nat

/-- The constant `ownerFile`. -/
def ownerFile : String := "OWNERS"

/-- The constant `sigInfoFile`. -/
def sigInfoFile : String := "sig-info.yaml"

/-- The type `sets.String` of k8s.io/apimachinery: a set of strings, kept as a list. -/
abbrev StringSet := List String

/-- The call `sets.NewString()` without arguments: the empty set. -/
def NewString : StringSet := []

/-- The method `Insert`: adds a member, a member already present is not added twice. -/
def Insert (s : StringSet) (x : String) : StringSet :=
  if x ∈ s then s else s ++ [x]

/-- The method `Has`: membership test. -/
def Has (s : StringSet) (x : String) : Bool :=
  decide (x ∈ s)

/-- The method `Delete`: removes a member. -/
def Delete (s : StringSet) (x : String) : StringSet :=
  s.filter (fun y => !(y == x))

/-- The call `strings.Count(s, sep)` for a separator of one character. -/
def Count (s : String) (sep : Char) : Nat :=
  (s.data.filter (fun c => c == sep)).length

/-- The anonymous struct that `decodeOwnerFile` unmarshals into. -/
structure OwnersDoc where
  Maintainers : List String
  Committers : List String
deriving DecidableEq, Repr

/-- Modelled from the spec: the element type of `SigInfos.Maintainers`, declared outside
permission.go; "a list of maintainer entries, each carrying an identity field". -/
structure Maintainer where
  GiteeID : String
deriving DecidableEq, Repr

/-- Modelled from the spec: the type `SigInfos`, declared outside permission.go; only its
field `Maintainers` is read. -/
structure SigInfos where
  Maintainers : List Maintainer
deriving DecidableEq, Repr

/-- The library functions that permission.go calls. -/
structure GoLib where
  /-- The function `strings.ToLower`. -/
  ToLower : String → String
  /-- The function `base64.StdEncoding.DecodeString`; `none` is a non-nil error. -/
  DecodeString : String → Option Bytes
  /-- The function `yaml.Unmarshal` into the owners struct; `none` is a non-nil error. -/
  UnmarshalOwners : Bytes → Option OwnersDoc
  /-- The function `yaml.Unmarshal` into `SigInfos`; `none` is a non-nil error. -/
  UnmarshalSigInfos : Bytes → Option SigInfos
  /-- The function `filepath.Dir`. -/
  Dir : String → String
  /-- The method `Dir` of `models.Path`. -/
  PathDir : String → String

/-- One entry of the list `GetPullRequestChanges` returns (`sdk.PullRequestFiles`). -/
structure PullRequestFiles where
  Filename : String
deriving DecidableEq, Repr

/-- The struct `models.File`: a path and base64 content. -/
structure File where
  Path : String
  Content : String
deriving DecidableEq, Repr

/-- The struct `models.FilesInfo`. -/
structure FilesInfo where
  Files : List File
deriving DecidableEq, Repr

/-- The struct `models.Branch`. -/
structure Branch where
  Platform : String
  Org : String
  Repo : String
  Branch : String
deriving DecidableEq, Repr

/-- What the code reads of `sdk.PullRequestHook`: `GetNumber()` and `GetBase().GetRef()`. -/
structure PullRequestHook where
  Number : Int
  BaseRef : String
deriving DecidableEq, Repr

/-- What the code reads of the value `GetUserPermissionsOfRepo` returns. -/
structure ProjectMemberPermission where
  Permission : String
deriving DecidableEq, Repr

/-- Modelled from the spec: the type `botConfig`, declared outside permission.go; `regSigDir`
is the compiled path-matching rule, here its `MatchString` predicate. -/
structure botConfig where
  regSigDir : String → Bool

/-- Modelled from the spec: the interface behind `bot.cli`, declared outside permission.go:
the role lookup and the changed-file listing. -/
structure giteeClient where
  GetUserPermissionsOfRepo : String → String → String → Except GoError ProjectMemberPermission
  GetPullRequestChanges : String → String → Int → Except GoError (List PullRequestFiles)

/-- Modelled from the spec: the interface behind `bot.cacheCli`, declared outside
permission.go: the content retrieval. -/
structure cacheClient where
  GetFiles : Branch → String → Bool → Except GoError FilesInfo

/-- Modelled from the spec: the type `robot`, declared outside permission.go. -/
structure robot where
  cli : giteeClient
  cacheCli : cacheClient

/-! ## permission.go -/

/-- The function `decodeSigInfoFile`. -/
def decodeSigInfoFile (L : GoLib) (content : String) : StringSet :=
  let owners := NewString
  match L.DecodeString content with
  | none => owners
  | some c =>
    match L.UnmarshalSigInfos c with
    | none => owners
    | some m => m.Maintainers.foldl (fun o v => Insert o (L.ToLower v.GiteeID)) owners

/-- The function `decodeOwnerFile`. -/
def decodeOwnerFile (L : GoLib) (content : String) : StringSet :=
  let owners := NewString
  match L.DecodeString content with
  | none => owners
  | some c =>
    match L.UnmarshalOwners c with
    | none => owners
    | some m =>
      let owners := m.Maintainers.foldl (fun o v => Insert o (L.ToLower v)) owners
      m.Committers.foldl (fun o v => Insert o (L.ToLower v)) owners

/-- The method `getFiles`: the cache lookup, an error replaced by the empty `FilesInfo`
next to the error. -/
def getFiles (bot : robot) (org repo branch fileName : String) : Except GoError FilesInfo :=
  match bot.cacheCli.GetFiles ⟨"gitee", org, repo, branch⟩ fileName false with
  | .error err => .error err
  | .ok files => .ok files

/-- The first loop of `isOwnerOfSig`, over the changed files: `none` when a file fails the
shape checks (the `return false, nil` inside the loop), else the directories collected. -/
def collectPathes (L : GoLib) (cfg : botConfig) :
    List PullRequestFiles → StringSet → Option StringSet
  | [], pathes => some pathes
  | file :: rest, pathes =>
    if !cfg.regSigDir file.Filename || decide (Count file.Filename '/' > 2) then
      none
    else
      collectPathes L cfg rest (Insert pathes (L.Dir file.Filename))

/-- How a loop over ownership files ends. -/
inductive RangeResult where
  /-- A `return b, nil` inside the loop body. -/
  | returned (b : Bool)
  /-- The loop ran to its end, leaving the set `pathes`. -/
  | completed (pathes : StringSet)
deriving DecidableEq, Repr

/-- The loop over the ownership files of one variant (the two loops of `isOwnerOfSig` differ
only in the decoder). -/
def rangeFiles (L : GoLib) (decode : String → StringSet) (commenter : String) :
    List File → StringSet → RangeResult
  | [], pathes => .completed pathes
  | v :: rest, pathes =>
    let p := L.PathDir v.Path
    if !Has pathes p then
      rangeFiles L decode commenter rest pathes
    else if !Has (decode v.Content) commenter then
      .returned false
    else
      let pathes := Delete pathes p
      if pathes.length == 0 then
        .returned true
      else
        rangeFiles L decode commenter rest pathes

/-- The part of `isOwnerOfSig` after both retrievals: the two guarded loops and the final
`return false, nil`. -/
def matchOwners (L : GoLib) (commenter : String) (pathes : StringSet)
    (ownerFiles sigInfoFiles : FilesInfo) : Bool :=
  let r1 :=
    if ownerFiles.Files.length > 0 then
      rangeFiles L (decodeOwnerFile L) commenter ownerFiles.Files pathes
    else
      .completed pathes
  match r1 with
  | .returned b => b
  | .completed pathes =>
    let r2 :=
      if ownerFiles.Files.length == 0 && sigInfoFiles.Files.length > 0 then
        rangeFiles L (decodeSigInfoFile L) commenter sigInfoFiles.Files pathes
      else
        .completed pathes
    match r2 with
    | .returned b => b
    | .completed _ => false

/-- The method `isOwnerOfSig`. -/
def isOwnerOfSig (L : GoLib) (bot : robot) (org repo commenter : String)
    (pr : PullRequestHook) (cfg : botConfig) : Bool × Option GoError :=
  match bot.cli.GetPullRequestChanges org repo pr.Number with
  | .error err => (false, some err)
  | .ok changes =>
    if changes.length == 0 then
      (false, none)
    else
      match collectPathes L cfg changes NewString with
      | none => (false, none)
      | some pathes =>
        match getFiles bot org repo pr.BaseRef ownerFile with
        | .error err => (false, some err)
        | .ok ownerFiles =>
          match getFiles bot org repo pr.BaseRef sigInfoFile with
          | .error err => (false, some err)
          | .ok sigInfoFiles =>
            (matchOwners L commenter pathes ownerFiles sigInfoFiles, none)

/-- The method `hasPermission`. -/
def hasPermission (L : GoLib) (bot : robot) (org repo commenter : String)
    (needCheckSig : Bool) (pr : PullRequestHook) (cfg : botConfig) : Bool × Option GoError :=
  let commenter := L.ToLower commenter
  match bot.cli.GetUserPermissionsOfRepo org repo commenter with
  | .error err => (false, some err)
  | .ok p =>
    if p.Permission == "admin" || p.Permission == "write" then
      (true, none)
    else if needCheckSig then
      isOwnerOfSig L bot org repo commenter pr cfg
    else
      (false, none)

/-! ## A concrete library and concrete collaborators for the examples -/

/-- Lower-casing of one character, for the letters A to Z. -/
def lowerChar (c : Char) : Char :=
  if 65 ≤ c.toNat ∧ c.toNat ≤ 90 then Char.ofNat (c.toNat + 32) else c

/-- The function `strings.ToLower` on strings of ASCII characters. -/
def asciiLower (s : String) : String :=
  String.mk (s.data.map lowerChar)

/-- The value of a character in the standard base64 alphabet. -/
def b64Value (c : Char) : Option Nat :=
  let n := c.toNat
  if 65 ≤ n ∧ n ≤ 90 then some (n - 65)
  else if 97 ≤ n ∧ n ≤ 122 then some (n - 97 + 26)
  else if 48 ≤ n ∧ n ≤ 57 then some (n - 48 + 52)
  else if c = '+' then some 62
  else if c = '/' then some 63
  else none

/-- Decoding of base64 text in groups of four characters; padding is accepted in the last
group only. -/
def b64Quads : List Char → Option Bytes
  | [] => some []
  | a :: b :: c :: d :: rest =>
    match b64Value a, b64Value b with
    | some x, some y =>
      if d = '=' then
        if rest ≠ [] then none
        else if c = '=' then some [(x * 4 + y / 16) % 256]
        else
          match b64Value c with
          | some z => some [(x * 4 + y / 16) % 256, (y % 16 * 16 + z / 4) % 256]
          | none => none
      else
        match b64Value c, b64Value d, b64Quads rest with
        | some z, some w, some t =>
          some ((x * 4 + y / 16) % 256 :: (y % 16 * 16 + z / 4) % 256 ::
            (z % 4 * 64 + w) % 256 :: t)
        | _, _, _ => none
    | _, _ => none
  | _ => none

/-- The function `base64.StdEncoding.DecodeString`: carriage returns and line feeds are
skipped, the rest is decoded with padding. -/
def stdDecodeString (s : String) : Option Bytes :=
  b64Quads (s.data.filter (fun c => !(c == '\r') && !(c == '\n')))

/-- The pieces of a text between the occurrences of a separator. -/
def splitOnChar (sep : Char) : List Char → List (List Char)
  | [] => [[]]
  | c :: cs =>
    match splitOnChar sep cs with
    | [] => [[c]]
    | l :: ls => if c = sep then [] :: l :: ls else (c :: l) :: ls

/-- Plain YAML scalars that resolve to a string: a letter followed by letters, digits,
hyphens and underscores, the words YAML reads as booleans or null left out. -/
def plainScalar (cs : List Char) : Bool :=
  match cs with
  | [] => false
  | c :: _ =>
    c.isAlpha && cs.all (fun d => d.isAlphanum || d == '-' || d == '_') &&
      !(decide (asciiLower (String.mk cs) ∈
        ["y", "yes", "on", "true", "n", "no", "off", "false", "null"]))

/-- Reader for the block fragment of YAML in which OWNERS files are written: the keys
`maintainers:` and `committers:`, each followed by `- name` items. The flag tells which key
the items belong to (`some true` for maintainers). Anything else is reported as a parse error. -/
def readOwnersLines : List (List Char) → Option Bool → OwnersDoc → Option OwnersDoc
  | [], _, doc => some doc
  | line :: rest, cur, doc =>
    if line = [] then readOwnersLines rest cur doc
    else if line = "maintainers:".data then
      readOwnersLines rest (some true) ⟨[], doc.Committers⟩
    else if line = "committers:".data then
      readOwnersLines rest (some false) ⟨doc.Maintainers, []⟩
    else
      match line, cur with
      | '-' :: ' ' :: item, some true =>
        if plainScalar item then
          readOwnersLines rest cur ⟨doc.Maintainers ++ [String.mk item], doc.Committers⟩
        else none
      | '-' :: ' ' :: item, some false =>
        if plainScalar item then
          readOwnersLines rest cur ⟨doc.Maintainers, doc.Committers ++ [String.mk item]⟩
        else none
      | _, _ => none

/-- The function `yaml.Unmarshal` into the owners struct, on the block fragment. -/
def stdUnmarshalOwners (c : Bytes) : Option OwnersDoc :=
  readOwnersLines (splitOnChar '\n' (c.map Char.ofNat)) none ⟨[], []⟩

/-- Reader for the block fragment of sig-info.yaml: the key `maintainers:` followed by
`- gitee_id: name` items (the key name `gitee_id` belongs to the declaration of `SigInfos`,
outside permission.go). Anything else is reported as a parse error. -/
def readSigInfoLines : List (List Char) → Bool → SigInfos → Option SigInfos
  | [], _, doc => some doc
  | line :: rest, cur, doc =>
    if line = [] then readSigInfoLines rest cur doc
    else if line = "maintainers:".data then readSigInfoLines rest true ⟨[]⟩
    else
      match line, cur with
      | '-' :: ' ' :: 'g' :: 'i' :: 't' :: 'e' :: 'e' :: '_' :: 'i' :: 'd' :: ':' :: ' ' :: item,
          true =>
        if plainScalar item then
          readSigInfoLines rest cur ⟨doc.Maintainers ++ [⟨String.mk item⟩]⟩
        else none
      | _, _ => none

/-- The function `yaml.Unmarshal` into `SigInfos`, on the block fragment. -/
def stdUnmarshalSigInfos (c : Bytes) : Option SigInfos :=
  readSigInfoLines (splitOnChar '\n' (c.map Char.ofNat)) false ⟨[]⟩

/-- The element stack of `filepath.Clean`: empty elements and `.` are dropped, `..` removes
the element before it, or stays when there is none and the path is not rooted. -/
def cleanElems (rooted : Bool) : List (List Char) → List (List Char) → List (List Char)
  | [], out => out.reverse
  | e :: es, out =>
    if e = [] ∨ e = ['.'] then cleanElems rooted es out
    else if e = ['.', '.'] then
      match out with
      | top :: below =>
        if top = ['.', '.'] then cleanElems rooted es (e :: out)
        else cleanElems rooted es below
      | [] => if rooted then cleanElems rooted es out else cleanElems rooted es [e]
    else cleanElems rooted es (e :: out)

/-- The function `filepath.Clean` for slash-separated paths. -/
def Clean (path : List Char) : List Char :=
  match path with
  | [] => ['.']
  | c :: _ =>
    let rooted := decide (c = '/')
    let body := ['/'].intercalate (cleanElems rooted (splitOnChar '/' path) [])
    if rooted then '/' :: body
    else if body = [] then ['.'] else body

/-- The path up to and including its last slash; empty when there is no slash. -/
def throughLastSlash : List Char → List Char
  | [] => []
  | c :: cs =>
    if '/' ∈ cs then c :: throughLastSlash cs
    else if c = '/' then [c] else []

/-- The function `filepath.Dir` for slash-separated paths: the path without its last
element, cleaned. -/
def stdDir (path : String) : String :=
  String.mk (Clean (throughLastSlash path.data))

/-- A concrete library: ASCII lower-casing, base64 with padding, the block fragment of YAML,
slash-separated paths; `models.Path.Dir` is taken to be `filepath.Dir`. -/
def stdLib : GoLib where
  ToLower := asciiLower
  DecodeString := stdDecodeString
  UnmarshalOwners := stdUnmarshalOwners
  UnmarshalSigInfos := stdUnmarshalSigInfos
  Dir := stdDir
  PathDir := stdDir

/-- A path-matching rule for the examples: the paths below the directory `sig`. -/
def underSig (s : String) : Bool :=
  match s.data with
  | 's' :: 'i' :: 'g' :: '/' :: _ => true
  | _ => false

/-- The configuration of the examples. -/
def sigCfg : botConfig := ⟨underSig⟩

/-- A robot whose collaborators answer with fixed values: the role lookup, the changed-file
listing, and the content retrieval for OWNERS and for sig-info.yaml. -/
def fixedBot (role : Except GoError String) (changes : Except GoError (List String))
    (owners sigInfos : Except GoError (List File)) : robot where
  cli :=
    { GetUserPermissionsOfRepo := fun _ _ _ => role.map (fun r => ⟨r⟩)
      GetPullRequestChanges := fun _ _ _ => changes.map (fun l => l.map (fun f => ⟨f⟩)) }
  cacheCli :=
    { GetFiles := fun _ fileName _ =>
        if fileName = ownerFile then owners.map (fun l => ⟨l⟩)
        else sigInfos.map (fun l => ⟨l⟩) }

/-- The pull request of the examples. -/
def pr1 : PullRequestHook := ⟨1, "master"⟩

/-! ## The selected variant (the words of the specification) -/

/-- The files of the selected variant: the OWNERS files when at least one OWNERS file was
retrieved, otherwise the sig-info.yaml files. -/
def selectedFiles (ownerFiles sigInfoFiles : FilesInfo) : List File :=
  if ownerFiles.Files.length > 0 then ownerFiles.Files else sigInfoFiles.Files

/-- The decoder of the selected variant. -/
def selectedDecode (L : GoLib) (ownerFiles : FilesInfo) : String → StringSet :=
  if ownerFiles.Files.length > 0 then decodeOwnerFile L else decodeSigInfoFile L

/-- A changed file passes both shape checks of `isOwnerOfSig`: it matches `cfg.regSigDir`
and has at most two slashes. -/
def wellShaped (cfg : botConfig) (file : PullRequestFiles) : Prop :=
  cfg.regSigDir file.Filename = true ∧ Count file.Filename '/' ≤ 2

instance (cfg : botConfig) (file : PullRequestFiles) : Decidable (wellShaped cfg file) := by
  unfold wellShaped; infer_instance

/-- The role strings that grant permission on their own. -/
def elevated (p : ProjectMemberPermission) : Prop :=
  p.Permission = "admin" ∨ p.Permission = "write"

instance (p : ProjectMemberPermission) : Decidable (elevated p) := by
  unfold elevated; infer_instance

/-- The content of a selected-variant file is corrupt: it is not valid base64, or its decoded
bytes do not parse against the schema of the selected variant. -/
def corruptContent (L : GoLib) (ownerFiles : FilesInfo) (content : String) : Bool :=
  match L.DecodeString content with
  | none => true
  | some c =>
    if ownerFiles.Files.length > 0 then (L.UnmarshalOwners c).isNone
    else (L.UnmarshalSigInfos c).isNone

/-- The identity `e` is listed in a file of the selected variant with content `content`:
the content is valid base64 and parses against the schema of the selected variant, and `e`
is an entry of maintainers or of committers (OWNERS), or the identity field of a maintainer
entry (sig-info.yaml), in whatever case it is written there. -/
def listedIn (L : GoLib) (ownerFiles : FilesInfo) (content e : String) : Bool :=
  match L.DecodeString content with
  | none => false
  | some c =>
    if ownerFiles.Files.length > 0 then
      match L.UnmarshalOwners c with
      | none => false
      | some m => decide (e ∈ m.Maintainers ∨ e ∈ m.Committers)
    else
      match L.UnmarshalSigInfos c with
      | none => false
      | some m => decide ((⟨e⟩ : Maintainer) ∈ m.Maintainers)

/-! ## Example inputs -/

/-- An OWNERS file of sig/group-a; its content is the base64 text of the document with
maintainers [bob]. -/
def bobOwners : File := ⟨"sig/group-a/OWNERS", "bWFpbnRhaW5lcnM6Ci0gYm9iCg=="⟩

/-- An OWNERS file of sig/group-b, maintainers [carol]. -/
def carolOwners : File := ⟨"sig/group-b/OWNERS", "bWFpbnRhaW5lcnM6Ci0gY2Fyb2wK"⟩

/-- An OWNERS file of sig/group-a, maintainers [carol]. -/
def carolOwnersA : File := ⟨"sig/group-a/OWNERS", "bWFpbnRhaW5lcnM6Ci0gY2Fyb2wK"⟩

/-- An OWNERS file of sig/group-a, maintainers [AliceDev]. -/
def aliceOwners : File := ⟨"sig/group-a/OWNERS", "bWFpbnRhaW5lcnM6Ci0gQWxpY2VEZXYK"⟩

/-- A sig-info.yaml file of sig/group-a with one maintainer entry, gitee_id bob. -/
def bobSigInfo : File :=
  ⟨"sig/group-a/sig-info.yaml", "bWFpbnRhaW5lcnM6Ci0gZ2l0ZWVfaWQ6IGJvYgo="⟩

/-- An OWNERS file of sig/group-a whose content is not base64. -/
def corruptOwners : File := ⟨"sig/group-a/OWNERS", "%%%corrupt%%%"⟩

/-- The scenario of the specification: two changed files of sig/group-a, one OWNERS file
there listing bob, a role that is not elevated. -/
def scenarioBot : robot :=
  fixedBot (.ok "read") (.ok ["sig/group-a/OWNERS", "sig/group-a/README.md"])
    (.ok [bobOwners]) (.ok [])

/-- Two touched directories: the OWNERS file of the first lists bob, that of the second
lists carol. -/
def vetoBot : robot :=
  fixedBot (.ok "read") (.ok ["sig/group-a/OWNERS", "sig/group-b/README.md"])
    (.ok [bobOwners, carolOwners]) (.ok [])

/-- An elevated role while the listing and the content retrieval fail. -/
def adminBot : robot :=
  fixedBot (.ok "admin") (.error "listing failed") (.error "cache failed")
    (.error "cache failed")

/-- An OWNERS file without bob next to a sig-info.yaml file with bob, same directory. -/
def bothVariantsBot : robot :=
  fixedBot (.ok "read") (.ok ["sig/group-a/README.md"]) (.ok [carolOwnersA])
    (.ok [bobSigInfo])

/-- The same collaborators with no sig-info.yaml file retrieved. -/
def ownersOnlyBot : robot :=
  fixedBot (.ok "read") (.ok ["sig/group-a/README.md"]) (.ok [carolOwnersA]) (.ok [])

/-- One changed path that is three directories deep, next to a well-shaped one. -/
def deepPathBot : robot :=
  fixedBot (.ok "read") (.ok ["sig/group-a/OWNERS", "sig/group-a/x/y/deep.md"])
    (.ok [bobOwners]) (.ok [])

/-- The only OWNERS file of the touched directory is corrupt. -/
def corruptBot : robot :=
  fixedBot (.ok "read") (.ok ["sig/group-a/README.md"]) (.ok [corruptOwners]) (.ok [])

/-- The only OWNERS file of the touched directory lists AliceDev. -/
def aliceBot : robot :=
  fixedBot (.ok "read") (.ok ["sig/group-a/README.md"]) (.ok [aliceOwners]) (.ok [])

/-! ## Further notions of the specification and example inputs -/

/-- The number of slash-delimited segments of a path, the length of
`strings.Split(s, "/")`. -/
def segments (s : String) : Nat :=
  (splitOnChar '/' s.data).length

/-- A list of files in which the content of the file at position `i` is replaced; the path
stays, and a position beyond the end changes nothing. -/
def replaceContent : List File → Nat → String → List File
  | [], _, _ => []
  | v :: rest, 0, content => ⟨v.Path, content⟩ :: rest
  | v :: rest, i + 1, content => v :: replaceContent rest i content

/-- An OWNERS file of sig/group-b, maintainers [bob]. -/
def bobOwnersB : File := ⟨"sig/group-b/OWNERS", "bWFpbnRhaW5lcnM6Ci0gYm9iCg=="⟩

/-- An OWNERS file of sig/group-a with maintainers [bob] and committers [carol]. -/
def bobCarolOwners : File :=
  ⟨"sig/group-a/OWNERS", "bWFpbnRhaW5lcnM6Ci0gYm9iCmNvbW1pdHRlcnM6Ci0gY2Fyb2wK"⟩

/-- An OWNERS file of sig/group-a whose content is the base64 text of `maintainers: {`, an
unterminated flow mapping. -/
def unparsableOwners : File := ⟨"sig/group-a/OWNERS", "bWFpbnRhaW5lcnM6IHsK"⟩

/-- An empty listing while the content retrieval would fail. -/
def emptyChangeBot : robot :=
  fixedBot (.ok "read") (.ok []) (.error "cache failed") (.error "cache failed")

/-- A role that is not elevated while the listing and the content retrieval would fail. -/
def readerBot : robot :=
  fixedBot (.ok "read") (.error "listing failed") (.error "cache failed")
    (.error "cache failed")

/-- The scenario of the specification with a second OWNERS file, of the untouched directory
sig/group-b. -/
def untouchedBot : robot :=
  fixedBot (.ok "read") (.ok ["sig/group-a/OWNERS", "sig/group-a/README.md"])
    (.ok [bobOwners, carolOwners]) (.ok [])

/-- Two OWNERS files of the touched directory: the first lists bob, the second does not. -/
def duplicateBot : robot :=
  fixedBot (.ok "read") (.ok ["sig/group-a/README.md"]) (.ok [bobOwners, carolOwnersA])
    (.ok [])

/-- The same with the first OWNERS file only. -/
def firstOnlyBot : robot :=
  fixedBot (.ok "read") (.ok ["sig/group-a/README.md"]) (.ok [bobOwners]) (.ok [])

/-- Two touched directories, both owned by bob. -/
def twoDirsBot : robot :=
  fixedBot (.ok "read") (.ok ["sig/group-a/OWNERS", "sig/group-b/README.md"])
    (.ok [bobOwners, bobOwnersB]) (.ok [])

/-- The same ownership files with the second changed file only. -/
def oneDirBot : robot :=
  fixedBot (.ok "read") (.ok ["sig/group-b/README.md"]) (.ok [bobOwners, bobOwnersB])
    (.ok [])

/-! ## The string set -/

theorem mem_Insert (s : StringSet) (x y : String) : y ∈ Insert s x ↔ y ∈ s ∨ y = x := by
  unfold Insert
  split
  · constructor
    · intro h; exact Or.inl h
    · rintro (h | h)
      · exact h
      · subst h; assumption
  · simp

theorem Has_eq_true (s : StringSet) (x : String) : Has s x = true ↔ x ∈ s := by
  simp [Has]

theorem mem_Delete (s : StringSet) (x y : String) : y ∈ Delete s x ↔ y ∈ s ∧ y ≠ x := by
  simp [Delete]

theorem mem_foldl_Insert {α : Type} (f : α → String) (l : List α) (init : StringSet)
    (x : String) :
    x ∈ l.foldl (fun o v => Insert o (f v)) init ↔ x ∈ init ∨ ∃ v ∈ l, f v = x := by
  induction l generalizing init with
  | nil => simp
  | cons a l ih =>
    simp only [List.foldl_cons, ih, mem_Insert, List.mem_cons, exists_eq_or_imp]
    constructor
    · rintro ((h | h) | h)
      · exact Or.inl h
      · exact Or.inr (Or.inl h.symm)
      · exact Or.inr (Or.inr h)
    · rintro (h | h | h)
      · exact Or.inl (Or.inl h)
      · exact Or.inl (Or.inr h.symm)
      · exact Or.inr h

/-! ## The decoders -/

theorem mem_decodeOwnerFile (L : GoLib) (content : String) (x : String) :
    x ∈ decodeOwnerFile L content ↔
      ∃ c m, L.DecodeString content = some c ∧ L.UnmarshalOwners c = some m ∧
        ((∃ v ∈ m.Maintainers, L.ToLower v = x) ∨ (∃ v ∈ m.Committers, L.ToLower v = x)) := by
  unfold decodeOwnerFile
  cases hd : L.DecodeString content with
  | none => simp [NewString]
  | some c =>
    cases hu : L.UnmarshalOwners c with
    | none => simp [NewString, hu]
    | some m => simp [NewString, mem_foldl_Insert, hu]

theorem mem_decodeSigInfoFile (L : GoLib) (content : String) (x : String) :
    x ∈ decodeSigInfoFile L content ↔
      ∃ c m, L.DecodeString content = some c ∧ L.UnmarshalSigInfos c = some m ∧
        ∃ v ∈ m.Maintainers, L.ToLower v.GiteeID = x := by
  unfold decodeSigInfoFile
  cases hd : L.DecodeString content with
  | none => simp [NewString]
  | some c =>
    cases hu : L.UnmarshalSigInfos c with
    | none => simp [NewString, hu]
    | some m => simp [NewString, mem_foldl_Insert, hu]

/-! ## The loop over the changed files -/

theorem collectPathes_none (L : GoLib) (cfg : botConfig) (changes : List PullRequestFiles)
    (acc : StringSet) (file : PullRequestFiles) (hmem : file ∈ changes)
    (hbad : ¬ wellShaped cfg file) : collectPathes L cfg changes acc = none := by
  induction changes generalizing acc with
  | nil => simp at hmem
  | cons f rest ih =>
    unfold collectPathes
    by_cases hf : wellShaped cfg f
    · have h1 : (!cfg.regSigDir f.Filename || decide (Count f.Filename '/' > 2)) = false := by
        have := hf.1; have := hf.2
        simp [*]
      rw [h1]
      simp only [Bool.false_eq_true, if_false]
      rcases List.mem_cons.mp hmem with h | h
      · subst h; exact absurd hf hbad
      · exact ih _ h
    · have h1 : (!cfg.regSigDir f.Filename || decide (Count f.Filename '/' > 2)) = true := by
        unfold wellShaped at hf
        by_cases hr : cfg.regSigDir f.Filename = true
        · have : ¬ Count f.Filename '/' ≤ 2 := fun h => hf ⟨hr, h⟩
          simp [hr]; omega
        · simp [hr]
      rw [h1]
      simp

theorem collectPathes_some (L : GoLib) (cfg : botConfig) (changes : List PullRequestFiles)
    (acc : StringSet) (hall : ∀ file ∈ changes, wellShaped cfg file) :
    ∃ pathes, collectPathes L cfg changes acc = some pathes ∧
      ∀ d, d ∈ pathes ↔ d ∈ acc ∨ ∃ file ∈ changes, L.Dir file.Filename = d := by
  induction changes generalizing acc with
  | nil => exact ⟨acc, rfl, by simp⟩
  | cons f rest ih =>
    have hf := hall f (List.mem_cons_self _ _)
    have h1 : (!cfg.regSigDir f.Filename || decide (Count f.Filename '/' > 2)) = false := by
      have := hf.1; have := hf.2
      simp [*]
    obtain ⟨pathes, hp, hmem⟩ :=
      ih (Insert acc (L.Dir f.Filename)) (fun x hx => hall x (List.mem_cons_of_mem _ hx))
    refine ⟨pathes, ?_, ?_⟩
    · unfold collectPathes
      rw [h1]
      simpa using hp
    · intro d
      rw [hmem d, mem_Insert]
      simp only [List.mem_cons, exists_eq_or_imp]
      constructor
      · rintro ((h | h) | h)
        · exact Or.inl h
        · exact Or.inr (Or.inl h.symm)
        · exact Or.inr (Or.inr h)
      · rintro (h | h | h)
        · exact Or.inl (Or.inl h)
        · exact Or.inl (Or.inr h.symm)
        · exact Or.inr h

theorem collectPathes_wellShaped (L : GoLib) (cfg : botConfig)
    (changes : List PullRequestFiles) (acc pathes : StringSet)
    (h : collectPathes L cfg changes acc = some pathes) :
    ∀ file ∈ changes, wellShaped cfg file := by
  intro file hmem
  by_contra hbad
  rw [collectPathes_none L cfg changes acc file hmem hbad] at h
  exact Option.noConfusion h

/-! ## The loop over the ownership files -/

theorem rangeFiles_cons_skip (L : GoLib) (decode : String → StringSet) (commenter : String)
    (v : File) (rest : List File) (pathes : StringSet) (h : L.PathDir v.Path ∉ pathes) :
    rangeFiles L decode commenter (v :: rest) pathes =
      rangeFiles L decode commenter rest pathes := by
  have h1 : Has pathes (L.PathDir v.Path) = false := by simp [Has, h]
  simp [rangeFiles, h1]

theorem rangeFiles_cons_veto (L : GoLib) (decode : String → StringSet) (commenter : String)
    (v : File) (rest : List File) (pathes : StringSet) (h : L.PathDir v.Path ∈ pathes)
    (hc : commenter ∉ decode v.Content) :
    rangeFiles L decode commenter (v :: rest) pathes = .returned false := by
  have h1 : Has pathes (L.PathDir v.Path) = true := by simp [Has, h]
  have h2 : Has (decode v.Content) commenter = false := by simp [Has, hc]
  simp [rangeFiles, h1, h2]

theorem rangeFiles_cons_cover (L : GoLib) (decode : String → StringSet) (commenter : String)
    (v : File) (rest : List File) (pathes : StringSet) (h : L.PathDir v.Path ∈ pathes)
    (hc : commenter ∈ decode v.Content) :
    rangeFiles L decode commenter (v :: rest) pathes =
      if Delete pathes (L.PathDir v.Path) = [] then .returned true
      else rangeFiles L decode commenter rest (Delete pathes (L.PathDir v.Path)) := by
  have h1 : Has pathes (L.PathDir v.Path) = true := by simp [Has, h]
  have h2 : Has (decode v.Content) commenter = true := by simp [Has, hc]
  simp [rangeFiles, h1, h2, List.length_eq_zero]

/-- Soundness of the loop: when it returns true, every directory of the set it started from
was covered by a file that lists the commenter. -/
theorem rangeFiles_sound (L : GoLib) (decode : String → StringSet) (commenter : String)
    (files : List File) (pathes : StringSet)
    (h : rangeFiles L decode commenter files pathes = .returned true) :
    ∀ d ∈ pathes, ∃ v ∈ files, L.PathDir v.Path = d ∧ commenter ∈ decode v.Content := by
  induction files generalizing pathes with
  | nil => simp [rangeFiles] at h
  | cons v rest ih =>
    intro d hd
    by_cases hp : L.PathDir v.Path ∈ pathes
    · by_cases hc : commenter ∈ decode v.Content
      · by_cases hdp : d = L.PathDir v.Path
        · exact ⟨v, List.mem_cons_self _ _, hdp.symm, hc⟩
        · rw [rangeFiles_cons_cover L decode commenter v rest pathes hp hc] at h
          have hd2 : d ∈ Delete pathes (L.PathDir v.Path) := (mem_Delete _ _ _).mpr ⟨hd, hdp⟩
          have hne : Delete pathes (L.PathDir v.Path) ≠ [] := List.ne_nil_of_mem hd2
          rw [if_neg hne] at h
          obtain ⟨w, hw, hw2⟩ := ih _ h d hd2
          exact ⟨w, List.mem_cons_of_mem _ hw, hw2⟩
      · rw [rangeFiles_cons_veto L decode commenter v rest pathes hp hc] at h
        simp at h
    · rw [rangeFiles_cons_skip L decode commenter v rest pathes hp] at h
      obtain ⟨w, hw, hw2⟩ := ih _ h d hd
      exact ⟨w, List.mem_cons_of_mem _ hw, hw2⟩

/-- Veto in the loop: a directory of the set none of whose files lists the commenter keeps
the loop from returning true. -/
theorem rangeFiles_veto (L : GoLib) (decode : String → StringSet) (commenter : String)
    (files : List File) (pathes : StringSet) (d : String) (hd : d ∈ pathes)
    (hno : ∀ v ∈ files, L.PathDir v.Path = d → commenter ∉ decode v.Content) :
    rangeFiles L decode commenter files pathes ≠ .returned true := by
  intro h
  obtain ⟨v, hv, hvd, hc⟩ := rangeFiles_sound L decode commenter files pathes h d hd
  exact hno v hv hvd hc

/-- Completeness of the loop: when every directory of a non-empty set has a file and every
file in a directory of the set lists the commenter, the loop returns true. -/
theorem rangeFiles_complete (L : GoLib) (decode : String → StringSet) (commenter : String)
    (files : List File) (pathes : StringSet) (hne : pathes ≠ [])
    (hcov : ∀ d ∈ pathes, ∃ v ∈ files, L.PathDir v.Path = d)
    (hall : ∀ v ∈ files, L.PathDir v.Path ∈ pathes → commenter ∈ decode v.Content) :
    rangeFiles L decode commenter files pathes = .returned true := by
  induction files generalizing pathes with
  | nil =>
    obtain ⟨d, hd⟩ := List.exists_mem_of_ne_nil pathes hne
    obtain ⟨v, hv, _⟩ := hcov d hd
    simp at hv
  | cons v rest ih =>
    by_cases hp : L.PathDir v.Path ∈ pathes
    · have hc := hall v (List.mem_cons_self _ _) hp
      rw [rangeFiles_cons_cover L decode commenter v rest pathes hp hc]
      by_cases hem : Delete pathes (L.PathDir v.Path) = []
      · rw [if_pos hem]
      · rw [if_neg hem]
        apply ih _ hem
        · intro d hd
          obtain ⟨hd1, hd2⟩ := (mem_Delete _ _ _).mp hd
          obtain ⟨w, hw, hwd⟩ := hcov d hd1
          rcases List.mem_cons.mp hw with h | h
          · subst h; exact absurd hwd.symm hd2
          · exact ⟨w, h, hwd⟩
        · intro w hw hwp
          exact hall w (List.mem_cons_of_mem _ hw) ((mem_Delete _ _ _).mp hwp).1
    · rw [rangeFiles_cons_skip L decode commenter v rest pathes hp]
      apply ih _ hne
      · intro d hd
        obtain ⟨w, hw, hwd⟩ := hcov d hd
        rcases List.mem_cons.mp hw with h | h
        · subst h; rw [hwd] at hp; exact absurd hd hp
        · exact ⟨w, h, hwd⟩
      · intro w hw hwp
        exact hall w (List.mem_cons_of_mem _ hw) hwp

/-- The two guarded loops amount to one loop over the selected variant. -/
theorem matchOwners_eq_true (L : GoLib) (commenter : String) (pathes : StringSet)
    (ownerFiles sigInfoFiles : FilesInfo) :
    matchOwners L commenter pathes ownerFiles sigInfoFiles = true ↔
      rangeFiles L (selectedDecode L ownerFiles) commenter
        (selectedFiles ownerFiles sigInfoFiles) pathes = .returned true := by
  unfold matchOwners selectedDecode selectedFiles
  by_cases ho : ownerFiles.Files.length > 0
  · have ho2 : ¬ ownerFiles.Files.length = 0 := by omega
    simp only [ho, if_true]
    cases hr : rangeFiles L (decodeOwnerFile L) commenter ownerFiles.Files pathes with
    | returned b => simp
    | completed q => simp [ho2]
  · have ho2 : ownerFiles.Files.length = 0 := by omega
    simp only [ho, if_false]
    by_cases hs : sigInfoFiles.Files.length > 0
    · simp only [ho2, hs, beq_self_eq_true, decide_True, Bool.and_self, if_true]
      cases hr : rangeFiles L (decodeSigInfoFile L) commenter sigInfoFiles.Files pathes with
      | returned b => simp
      | completed q => simp
    · have hs2 : sigInfoFiles.Files = [] := by
        apply List.length_eq_zero.mp; omega
      simp [ho2, hs2, rangeFiles]

/-- The result of `isOwnerOfSig` once the three collaborator calls have succeeded on a
non-empty list of well-shaped paths. -/
theorem isOwnerOfSig_eq (L : GoLib) (bot : robot) (org repo commenter : String)
    (pr : PullRequestHook) (cfg : botConfig) (changes : List PullRequestFiles)
    (ownerFiles sigInfoFiles : FilesInfo)
    (hch : bot.cli.GetPullRequestChanges org repo pr.Number = .ok changes)
    (hne : changes ≠ [])
    (hshape : ∀ file ∈ changes, wellShaped cfg file)
    (hown : bot.cacheCli.GetFiles ⟨"gitee", org, repo, pr.BaseRef⟩ ownerFile false
      = .ok ownerFiles)
    (hsig : bot.cacheCli.GetFiles ⟨"gitee", org, repo, pr.BaseRef⟩ sigInfoFile false
      = .ok sigInfoFiles) :
    ∃ pathes, (∀ d, d ∈ pathes ↔ ∃ file ∈ changes, L.Dir file.Filename = d) ∧
      isOwnerOfSig L bot org repo commenter pr cfg =
        (matchOwners L commenter pathes ownerFiles sigInfoFiles, none) := by
  obtain ⟨pathes, hp, hmem⟩ := collectPathes_some L cfg changes NewString hshape
  refine ⟨pathes, ?_, ?_⟩
  · intro d
    rw [hmem d]
    simp [NewString]
  · have hlen : ¬ changes.length = 0 := fun h => hne (List.length_eq_zero.mp h)
    simp [isOwnerOfSig, getFiles, hch, hlen, hp, hown, hsig]

/-! ## The claims -/

/-- C1. Soundness of unanimous coverage: whenever `isOwnerOfSig` returns true, the three
collaborator calls succeeded, the changed-file list is non-empty, the selected variant (the
OWNERS files if at least one was retrieved, otherwise the sig-info.yaml files) is non-empty,
and for the parent directory of every changed file there is a file of the selected variant
whose directory equals it and whose decoded identity set contains the identity. -/
theorem isOwnerOfSig_true_covered (L : GoLib) (bot : robot) (org repo commenter : String)
    (pr : PullRequestHook) (cfg : botConfig)
    (h : (isOwnerOfSig L bot org repo commenter pr cfg).1 = true) :
    ∃ changes ownerFiles sigInfoFiles,
      bot.cli.GetPullRequestChanges org repo pr.Number = .ok changes ∧
      bot.cacheCli.GetFiles ⟨"gitee", org, repo, pr.BaseRef⟩ ownerFile false
        = .ok ownerFiles ∧
      bot.cacheCli.GetFiles ⟨"gitee", org, repo, pr.BaseRef⟩ sigInfoFile false
        = .ok sigInfoFiles ∧
      changes ≠ [] ∧
      selectedFiles ownerFiles sigInfoFiles ≠ [] ∧
      ∀ file ∈ changes, ∃ v ∈ selectedFiles ownerFiles sigInfoFiles,
        L.PathDir v.Path = L.Dir file.Filename ∧
        commenter ∈ selectedDecode L ownerFiles v.Content := by
  cases hch : bot.cli.GetPullRequestChanges org repo pr.Number with
  | error e => simp [isOwnerOfSig, hch] at h
  | ok changes =>
    by_cases hne : changes = []
    · simp [isOwnerOfSig, hch, hne] at h
    · have hlen : ¬ changes.length = 0 := fun h0 => hne (List.length_eq_zero.mp h0)
      cases hcp : collectPathes L cfg changes NewString with
      | none => simp [isOwnerOfSig, hch, hlen, hcp] at h
      | some pathes =>
        have hshape := collectPathes_wellShaped L cfg changes NewString pathes hcp
        cases hown : bot.cacheCli.GetFiles ⟨"gitee", org, repo, pr.BaseRef⟩ ownerFile false with
        | error e => simp [isOwnerOfSig, getFiles, hch, hlen, hcp, hown] at h
        | ok ownerFiles =>
          cases hsig :
              bot.cacheCli.GetFiles ⟨"gitee", org, repo, pr.BaseRef⟩ sigInfoFile false with
          | error e => simp [isOwnerOfSig, getFiles, hch, hlen, hcp, hown, hsig] at h
          | ok sigInfoFiles =>
            obtain ⟨pathes2, hmem, heq⟩ := isOwnerOfSig_eq L bot org repo commenter pr cfg
              changes ownerFiles sigInfoFiles hch hne hshape hown hsig
            rw [heq] at h
            have hr := (matchOwners_eq_true L commenter pathes2 ownerFiles sigInfoFiles).mp h
            have hs := rangeFiles_sound L _ commenter _ pathes2 hr
            have hcov : ∀ file ∈ changes, ∃ v ∈ selectedFiles ownerFiles sigInfoFiles,
                L.PathDir v.Path = L.Dir file.Filename ∧
                commenter ∈ selectedDecode L ownerFiles v.Content := fun file hfile =>
              hs (L.Dir file.Filename) ((hmem _).mpr ⟨file, hfile, rfl⟩)
            refine ⟨changes, ownerFiles, sigInfoFiles, rfl, rfl, rfl, hne, ?_, hcov⟩
            obtain ⟨file, hfile⟩ := List.exists_mem_of_ne_nil changes hne
            obtain ⟨v, hv, _⟩ := hcov file hfile
            exact List.ne_nil_of_mem hv

/-- C2. Unanimity veto: the listing succeeds with a non-empty list of well-shaped paths, both
retrievals succeed and the selected variant holds at most one file per directory. If the
selected-variant file `v` located in the directory of a changed file decodes to a set that
does not contain the identity, `isOwnerOfSig` returns `(false, nil)`, whatever the other
files contain and in whatever order the files come. -/
theorem isOwnerOfSig_veto (L : GoLib) (bot : robot) (org repo commenter : String)
    (pr : PullRequestHook) (cfg : botConfig) (changes : List PullRequestFiles)
    (ownerFiles sigInfoFiles : FilesInfo)
    (hch : bot.cli.GetPullRequestChanges org repo pr.Number = .ok changes)
    (hne : changes ≠ [])
    (hshape : ∀ file ∈ changes, wellShaped cfg file)
    (hown : bot.cacheCli.GetFiles ⟨"gitee", org, repo, pr.BaseRef⟩ ownerFile false
      = .ok ownerFiles)
    (hsig : bot.cacheCli.GetFiles ⟨"gitee", org, repo, pr.BaseRef⟩ sigInfoFile false
      = .ok sigInfoFiles)
    (hone : ((selectedFiles ownerFiles sigInfoFiles).map (fun w => L.PathDir w.Path)).Nodup)
    (file : PullRequestFiles) (hfile : file ∈ changes)
    (v : File) (hv : v ∈ selectedFiles ownerFiles sigInfoFiles)
    (hdir : L.PathDir v.Path = L.Dir file.Filename)
    (hlack : commenter ∉ selectedDecode L ownerFiles v.Content) :
    isOwnerOfSig L bot org repo commenter pr cfg = (false, none) := by
  obtain ⟨pathes, hmem, heq⟩ := isOwnerOfSig_eq L bot org repo commenter pr cfg
    changes ownerFiles sigInfoFiles hch hne hshape hown hsig
  rw [heq]
  have hd : L.Dir file.Filename ∈ pathes := (hmem _).mpr ⟨file, hfile, rfl⟩
  have hno : ∀ w ∈ selectedFiles ownerFiles sigInfoFiles,
      L.PathDir w.Path = L.Dir file.Filename →
      commenter ∉ selectedDecode L ownerFiles w.Content := by
    intro w hw hwd
    have : w = v := List.inj_on_of_nodup_map hone hw hv (hwd.trans hdir.symm)
    rw [this]; exact hlack
  have hr := rangeFiles_veto L _ commenter _ pathes _ hd hno
  have hm : matchOwners L commenter pathes ownerFiles sigInfoFiles ≠ true := fun hm =>
    hr ((matchOwners_eq_true L commenter pathes ownerFiles sigInfoFiles).mp hm)
  simp only [Bool.not_eq_true] at hm
  rw [hm]

/-- C3. Completeness of coverage: the listing succeeds with a non-empty list of well-shaped
paths and both retrievals succeed. If the parent directory of every changed file has a file of
the selected variant located in it, and the identity is in the decoded set of every
selected-variant file located in the directory of a changed file, `isOwnerOfSig` returns
`(true, nil)`; files of untouched directories are unconstrained. -/
theorem isOwnerOfSig_complete (L : GoLib) (bot : robot) (org repo commenter : String)
    (pr : PullRequestHook) (cfg : botConfig) (changes : List PullRequestFiles)
    (ownerFiles sigInfoFiles : FilesInfo)
    (hch : bot.cli.GetPullRequestChanges org repo pr.Number = .ok changes)
    (hne : changes ≠ [])
    (hshape : ∀ file ∈ changes, wellShaped cfg file)
    (hown : bot.cacheCli.GetFiles ⟨"gitee", org, repo, pr.BaseRef⟩ ownerFile false
      = .ok ownerFiles)
    (hsig : bot.cacheCli.GetFiles ⟨"gitee", org, repo, pr.BaseRef⟩ sigInfoFile false
      = .ok sigInfoFiles)
    (hcov : ∀ file ∈ changes, ∃ v ∈ selectedFiles ownerFiles sigInfoFiles,
      L.PathDir v.Path = L.Dir file.Filename)
    (hall : ∀ v ∈ selectedFiles ownerFiles sigInfoFiles,
      (∃ file ∈ changes, L.Dir file.Filename = L.PathDir v.Path) →
      commenter ∈ selectedDecode L ownerFiles v.Content) :
    isOwnerOfSig L bot org repo commenter pr cfg = (true, none) := by
  obtain ⟨pathes, hmem, heq⟩ := isOwnerOfSig_eq L bot org repo commenter pr cfg
    changes ownerFiles sigInfoFiles hch hne hshape hown hsig
  rw [heq]
  have hpne : pathes ≠ [] := by
    obtain ⟨file, hfile⟩ := List.exists_mem_of_ne_nil changes hne
    exact List.ne_nil_of_mem ((hmem _).mpr ⟨file, hfile, rfl⟩)
  have hr := rangeFiles_complete L (selectedDecode L ownerFiles) commenter
    (selectedFiles ownerFiles sigInfoFiles) pathes hpne
    (by
      intro d hd
      obtain ⟨file, hfile, hfd⟩ := (hmem d).mp hd
      obtain ⟨v, hv, hvd⟩ := hcov file hfile
      exact ⟨v, hv, hvd.trans hfd⟩)
    (fun v hv hvp => hall v hv ((hmem _).mp hvp))
  rw [(matchOwners_eq_true L commenter pathes ownerFiles sigInfoFiles).mpr hr]

/-- C4. Elevated-role fast path: if the role lookup, called with the lowercased identity,
succeeds with permission "admin" or "write", `hasPermission` returns `(true, nil)`, whatever
the flag `needCheckSig`, the pull request and the other collaborators are. -/
theorem hasPermission_elevated (L : GoLib) (bot : robot) (org repo commenter : String)
    (needCheckSig : Bool) (pr : PullRequestHook) (cfg : botConfig)
    (p : ProjectMemberPermission)
    (hrole : bot.cli.GetUserPermissionsOfRepo org repo (L.ToLower commenter) = .ok p)
    (hel : elevated p) :
    hasPermission L bot org repo commenter needCheckSig pr cfg = (true, none) := by
  unfold elevated at hel
  simp only [hasPermission, hrole]
  rcases hel with h | h <;> simp [h]

/-- With at least one OWNERS file the sig-info.yaml files are never read. -/
theorem matchOwners_owners_first (L : GoLib) (commenter : String) (pathes : StringSet)
    (ownerFiles sigInfoFiles sigInfoFiles2 : FilesInfo) (hsome : ownerFiles.Files ≠ []) :
    matchOwners L commenter pathes ownerFiles sigInfoFiles =
      matchOwners L commenter pathes ownerFiles sigInfoFiles2 := by
  have hlen : ownerFiles.Files.length > 0 := List.length_pos.mpr hsome
  rw [Bool.eq_iff_iff, matchOwners_eq_true, matchOwners_eq_true]
  simp [selectedFiles, hlen]

/-- C5. Variant precedence: when at least one OWNERS file was retrieved, the result of
`isOwnerOfSig` does not depend on the retrieved sig-info.yaml files: two robots that agree on
the role lookup, the listing and the OWNERS retrieval, and whose sig-info.yaml retrievals both
succeed (with any collections, the empty one included), return the same result. -/
theorem isOwnerOfSig_owners_precedence (L : GoLib) (bot bot2 : robot)
    (org repo commenter : String) (pr : PullRequestHook) (cfg : botConfig)
    (ownerFiles sigInfoFiles sigInfoFiles2 : FilesInfo)
    (hcli : bot2.cli = bot.cli)
    (hown : bot.cacheCli.GetFiles ⟨"gitee", org, repo, pr.BaseRef⟩ ownerFile false
      = .ok ownerFiles)
    (hown2 : bot2.cacheCli.GetFiles ⟨"gitee", org, repo, pr.BaseRef⟩ ownerFile false
      = .ok ownerFiles)
    (hsome : ownerFiles.Files ≠ [])
    (hsig : bot.cacheCli.GetFiles ⟨"gitee", org, repo, pr.BaseRef⟩ sigInfoFile false
      = .ok sigInfoFiles)
    (hsig2 : bot2.cacheCli.GetFiles ⟨"gitee", org, repo, pr.BaseRef⟩ sigInfoFile false
      = .ok sigInfoFiles2) :
    isOwnerOfSig L bot org repo commenter pr cfg =
      isOwnerOfSig L bot2 org repo commenter pr cfg := by
  simp only [isOwnerOfSig, getFiles, hcli, hown, hown2, hsig, hsig2]
  cases bot.cli.GetPullRequestChanges org repo pr.Number with
  | error e => rfl
  | ok changes =>
    simp only
    split
    · rfl
    · cases collectPathes L cfg changes NewString with
      | none => rfl
      | some pathes =>
        simp only
        rw [matchOwners_owners_first L commenter pathes ownerFiles sigInfoFiles sigInfoFiles2
          hsome]

/-- C6. Fail-closed path validation: when the listing succeeds and one of the listed paths
does not match `cfg.regSigDir` or has more than two slashes, `isOwnerOfSig` returns
`(false, nil)`, whatever the other paths, the identity and the ownership files are. -/
theorem isOwnerOfSig_bad_path (L : GoLib) (bot : robot) (org repo commenter : String)
    (pr : PullRequestHook) (cfg : botConfig) (changes : List PullRequestFiles)
    (hch : bot.cli.GetPullRequestChanges org repo pr.Number = .ok changes)
    (file : PullRequestFiles) (hfile : file ∈ changes)
    (hbad : cfg.regSigDir file.Filename = false ∨ Count file.Filename '/' > 2) :
    isOwnerOfSig L bot org repo commenter pr cfg = (false, none) := by
  have hnot : ¬ wellShaped cfg file := by
    rintro ⟨h1, h2⟩
    rcases hbad with h | h
    · rw [h1] at h; exact Bool.noConfusion h
    · omega
  have hcp := collectPathes_none L cfg changes NewString file hfile hnot
  simp [isOwnerOfSig, hch, hcp]

/-- C7. Hard-error propagation: `hasPermission` returns the non-nil error `e` exactly when
(a) the role lookup fails with `e`, or the role lookup succeeds with a role other than
"admin" and "write", `needCheckSig` is true and (b) the listing fails with `e`, or (c) the
listing succeeds with a non-empty list of well-shaped paths and the OWNERS retrieval fails
with `e`, or succeeds while the sig-info.yaml retrieval fails with `e`. Whenever the error is
not nil the boolean is false. -/
theorem hasPermission_error_iff (L : GoLib) (bot : robot) (org repo commenter : String)
    (needCheckSig : Bool) (pr : PullRequestHook) (cfg : botConfig) (e : GoError) :
    ((hasPermission L bot org repo commenter needCheckSig pr cfg).2 = some e ↔
      (bot.cli.GetUserPermissionsOfRepo org repo (L.ToLower commenter) = .error e ∨
       ∃ p, bot.cli.GetUserPermissionsOfRepo org repo (L.ToLower commenter) = .ok p ∧
        ¬ elevated p ∧ needCheckSig = true ∧
        (bot.cli.GetPullRequestChanges org repo pr.Number = .error e ∨
         ∃ changes, bot.cli.GetPullRequestChanges org repo pr.Number = .ok changes ∧
          changes ≠ [] ∧ (∀ file ∈ changes, wellShaped cfg file) ∧
          (bot.cacheCli.GetFiles ⟨"gitee", org, repo, pr.BaseRef⟩ ownerFile false = .error e ∨
           ∃ ownerFiles,
            bot.cacheCli.GetFiles ⟨"gitee", org, repo, pr.BaseRef⟩ ownerFile false
              = .ok ownerFiles ∧
            bot.cacheCli.GetFiles ⟨"gitee", org, repo, pr.BaseRef⟩ sigInfoFile false
              = .error e)))) ∧
    ((hasPermission L bot org repo commenter needCheckSig pr cfg).1 = false ∨
      (hasPermission L bot org repo commenter needCheckSig pr cfg).2 = none) := by
  cases hrole : bot.cli.GetUserPermissionsOfRepo org repo (L.ToLower commenter) with
  | error e1 => simp [hasPermission, hrole]
  | ok p =>
    by_cases hel : elevated p
    · have hel2 : (p.Permission == "admin" || p.Permission == "write") = true := by
        unfold elevated at hel
        rcases hel with h | h <;> simp [h]
      simp [hasPermission, hrole, hel2, hel]
    · have hel2 : (p.Permission == "admin" || p.Permission == "write") = false := by
        unfold elevated at hel
        simp only [not_or] at hel
        simp [hel.1, hel.2]
      cases needCheckSig with
      | false => simp [hasPermission, hrole, hel2]
      | true =>
        simp only [hasPermission, hrole, hel2, Bool.false_eq_true, if_false, if_true]
        cases hch : bot.cli.GetPullRequestChanges org repo pr.Number with
        | error e1 => simp [isOwnerOfSig, hch, hel]
        | ok changes =>
          by_cases hne : changes = []
          · simp [isOwnerOfSig, hch, hne]
          · have hlen : ¬ changes.length = 0 := fun h0 => hne (List.length_eq_zero.mp h0)
            by_cases hshape : ∀ file ∈ changes, wellShaped cfg file
            · obtain ⟨pathes, hcp, _⟩ := collectPathes_some L cfg changes NewString hshape
              cases hown :
                  bot.cacheCli.GetFiles ⟨"gitee", org, repo, pr.BaseRef⟩ ownerFile false with
              | error e1 =>
                simp [isOwnerOfSig, getFiles, hch, hlen, hcp, hown, hel, hne]
                intro _ file hfile
                exact hshape file hfile
              | ok ownerFiles =>
                cases hsig :
                    bot.cacheCli.GetFiles ⟨"gitee", org, repo, pr.BaseRef⟩ sigInfoFile false with
                | error e1 =>
                  simp [isOwnerOfSig, getFiles, hch, hlen, hcp, hown, hsig, hel, hne]
                  intro _ file hfile
                  exact hshape file hfile
                | ok sigInfoFiles =>
                  simp [isOwnerOfSig, getFiles, hch, hlen, hcp, hown, hsig, hel, hne]
            · have hcp : collectPathes L cfg changes NewString = none := by
                push_neg at hshape
                obtain ⟨file, hfile, hbad⟩ := hshape
                exact collectPathes_none L cfg changes NewString file hfile hbad
              simp only [isOwnerOfSig, hch, hcp]
              simp [hlen, hel, hne]
              intro h
              exact absurd h hshape

theorem selectedDecode_corrupt (L : GoLib) (ownerFiles : FilesInfo) (content : String)
    (h : corruptContent L ownerFiles content = true) :
    selectedDecode L ownerFiles content = [] := by
  unfold corruptContent at h
  unfold selectedDecode
  cases hd : L.DecodeString content with
  | none => split <;> simp [decodeOwnerFile, decodeSigInfoFile, hd, NewString]
  | some c =>
    rw [hd] at h
    by_cases ho : ownerFiles.Files.length > 0
    · simp only [ho, if_true, Option.isNone_iff_eq_none] at h
      simp [ho, decodeOwnerFile, hd, h, NewString]
    · simp only [ho, if_false, Option.isNone_iff_eq_none] at h
      simp [ho, decodeSigInfoFile, hd, h, NewString]

/-- C8. A corrupt ownership file denies and never errors: the listing succeeds with a
non-empty list of well-shaped paths and both retrievals succeed. If `v` is the only
selected-variant file located in the directory of some changed file, and its content is not
valid base64 or does not parse against the schema, `isOwnerOfSig` returns `(false, nil)` for
every identity. -/
theorem isOwnerOfSig_corrupt_denies (L : GoLib) (bot : robot) (org repo : String)
    (pr : PullRequestHook) (cfg : botConfig) (changes : List PullRequestFiles)
    (ownerFiles sigInfoFiles : FilesInfo)
    (hch : bot.cli.GetPullRequestChanges org repo pr.Number = .ok changes)
    (hne : changes ≠ [])
    (hshape : ∀ file ∈ changes, wellShaped cfg file)
    (hown : bot.cacheCli.GetFiles ⟨"gitee", org, repo, pr.BaseRef⟩ ownerFile false
      = .ok ownerFiles)
    (hsig : bot.cacheCli.GetFiles ⟨"gitee", org, repo, pr.BaseRef⟩ sigInfoFile false
      = .ok sigInfoFiles)
    (file : PullRequestFiles) (hfile : file ∈ changes) (v : File)
    (honly : (selectedFiles ownerFiles sigInfoFiles).filter
      (fun w => decide (L.PathDir w.Path = L.Dir file.Filename)) = [v])
    (hcorrupt : corruptContent L ownerFiles v.Content = true) :
    ∀ commenter : String, isOwnerOfSig L bot org repo commenter pr cfg = (false, none) := by
  intro commenter
  obtain ⟨pathes, hmem, heq⟩ := isOwnerOfSig_eq L bot org repo commenter pr cfg
    changes ownerFiles sigInfoFiles hch hne hshape hown hsig
  rw [heq]
  have hd : L.Dir file.Filename ∈ pathes := (hmem _).mpr ⟨file, hfile, rfl⟩
  have hno : ∀ w ∈ selectedFiles ownerFiles sigInfoFiles,
      L.PathDir w.Path = L.Dir file.Filename →
      commenter ∉ selectedDecode L ownerFiles w.Content := by
    intro w hw hwd
    have hwf : w ∈ (selectedFiles ownerFiles sigInfoFiles).filter
        (fun w => decide (L.PathDir w.Path = L.Dir file.Filename)) :=
      List.mem_filter.mpr ⟨hw, by simpa using hwd⟩
    rw [honly, List.mem_singleton] at hwf
    rw [hwf, selectedDecode_corrupt L ownerFiles v.Content hcorrupt]
    simp
  have hr := rangeFiles_veto L _ commenter _ pathes _ hd hno
  have hm : matchOwners L commenter pathes ownerFiles sigInfoFiles ≠ true := fun hm =>
    hr ((matchOwners_eq_true L commenter pathes ownerFiles sigInfoFiles).mp hm)
  simp only [Bool.not_eq_true] at hm
  rw [hm]

/-- A listed identity is, lowercased, a member of the set decoded from the file. -/
theorem selectedDecode_listed (L : GoLib) (ownerFiles : FilesInfo) (content e : String)
    (h : listedIn L ownerFiles content e = true) :
    L.ToLower e ∈ selectedDecode L ownerFiles content := by
  unfold listedIn at h
  unfold selectedDecode
  cases hd : L.DecodeString content with
  | none => simp [hd] at h
  | some c =>
    rw [hd] at h
    by_cases ho : ownerFiles.Files.length > 0
    · simp only [ho, if_true] at h ⊢
      cases hu : L.UnmarshalOwners c with
      | none => simp [hu] at h
      | some m =>
        simp only [hu, decide_eq_true_eq] at h
        rw [mem_decodeOwnerFile]
        refine ⟨c, m, hd, hu, ?_⟩
        rcases h with h | h
        · exact Or.inl ⟨e, h, rfl⟩
        · exact Or.inr ⟨e, h, rfl⟩
    · simp only [ho, if_false] at h ⊢
      cases hu : L.UnmarshalSigInfos c with
      | none => simp [hu] at h
      | some m =>
        simp only [hu, decide_eq_true_eq] at h
        rw [mem_decodeSigInfoFile]
        exact ⟨c, m, hd, hu, ⟨e⟩, h, rfl⟩

/-- C9. Case-insensitive resolution: for two identity strings `c1`, `c2` that are equal after
lowercasing, `hasPermission` returns the same result with the same collaborators,
configuration and pull request. And an identity listed in the ownership files as `c1` is
found when `hasPermission` is queried with `c2`: when the role lookup succeeds, the directory
check is required, the listing succeeds with a non-empty list of well-shaped paths, both
retrievals succeed, every touched directory has a file of the selected variant, and `c1` is
listed in every selected-variant file of a touched directory, `hasPermission` queried with
`c2` returns `(true, nil)`. The sets the two decoders return have the identity that
`hasPermission` compares. -/
theorem hasPermission_case_insensitive (L : GoLib) (bot : robot) (org repo c1 c2 : String)
    (needCheckSig : Bool) (pr : PullRequestHook) (cfg : botConfig)
    (h : L.ToLower c1 = L.ToLower c2) :
    hasPermission L bot org repo c1 needCheckSig pr cfg =
      hasPermission L bot org repo c2 needCheckSig pr cfg ∧
    (∀ p changes ownerFiles sigInfoFiles,
      bot.cli.GetUserPermissionsOfRepo org repo (L.ToLower c2) = .ok p →
      needCheckSig = true →
      bot.cli.GetPullRequestChanges org repo pr.Number = .ok changes →
      changes ≠ [] →
      (∀ file ∈ changes, wellShaped cfg file) →
      bot.cacheCli.GetFiles ⟨"gitee", org, repo, pr.BaseRef⟩ ownerFile false
        = .ok ownerFiles →
      bot.cacheCli.GetFiles ⟨"gitee", org, repo, pr.BaseRef⟩ sigInfoFile false
        = .ok sigInfoFiles →
      (∀ file ∈ changes, ∃ v ∈ selectedFiles ownerFiles sigInfoFiles,
        L.PathDir v.Path = L.Dir file.Filename) →
      (∀ v ∈ selectedFiles ownerFiles sigInfoFiles,
        (∃ file ∈ changes, L.Dir file.Filename = L.PathDir v.Path) →
        listedIn L ownerFiles v.Content c1 = true) →
      hasPermission L bot org repo c2 needCheckSig pr cfg = (true, none)) ∧
    (∀ content c m, L.DecodeString content = some c → L.UnmarshalOwners c = some m →
      (c1 ∈ m.Maintainers ∨ c1 ∈ m.Committers) →
      Has (decodeOwnerFile L content) (L.ToLower c2) = true) ∧
    (∀ content c m, L.DecodeString content = some c → L.UnmarshalSigInfos c = some m →
      (⟨c1⟩ : Maintainer) ∈ m.Maintainers →
      Has (decodeSigInfoFile L content) (L.ToLower c2) = true) := by
  refine ⟨?_, ?_, ?_, ?_⟩
  · simp only [hasPermission, h]
  · intro p changes ownerFiles sigInfoFiles hrole hneed hch hne hshape hown hsig hcov hlisted
    subst hneed
    by_cases hel : (p.Permission == "admin" || p.Permission == "write") = true
    · simp [hasPermission, hrole, hel]
    · obtain ⟨pathes, hmem, heq⟩ := isOwnerOfSig_eq L bot org repo (L.ToLower c2) pr cfg
        changes ownerFiles sigInfoFiles hch hne hshape hown hsig
      have hpne : pathes ≠ [] := by
        obtain ⟨file, hfile⟩ := List.exists_mem_of_ne_nil changes hne
        exact List.ne_nil_of_mem ((hmem _).mpr ⟨file, hfile, rfl⟩)
      have hr := rangeFiles_complete L (selectedDecode L ownerFiles) (L.ToLower c2)
        (selectedFiles ownerFiles sigInfoFiles) pathes hpne
        (by
          intro d hd
          obtain ⟨file, hfile, hfd⟩ := (hmem d).mp hd
          obtain ⟨v, hv, hvd⟩ := hcov file hfile
          exact ⟨v, hv, hvd.trans hfd⟩)
        (by
          intro v hv hvp
          rw [← h]
          exact selectedDecode_listed L ownerFiles v.Content c1
            (hlisted v hv ((hmem _).mp hvp)))
      have hm := (matchOwners_eq_true L (L.ToLower c2) pathes ownerFiles sigInfoFiles).mpr hr
      simp only [hasPermission, hrole, hel, Bool.false_eq_true, if_false, if_true, heq, hm]
  · intro content c m hd hu hl
    rw [Has_eq_true, mem_decodeOwnerFile]
    refine ⟨c, m, hd, hu, ?_⟩
    rcases hl with hl | hl
    · exact Or.inl ⟨c1, hl, h⟩
    · exact Or.inr ⟨c1, hl, h⟩
  · intro content c m hd hu hl
    rw [Has_eq_true, mem_decodeSigInfoFile]
    exact ⟨c, m, hd, hu, ⟨c1⟩, hl, h⟩

/-- C10, the claim fails: `isOwnerOfSig` compares the identity as it is passed. With an
OWNERS file listing "AliceDev" for the only touched directory, `isOwnerOfSig` called directly
with "ALICEDEV" returns `(false, nil)`, and called with the lowercased identity `(true, nil)`. -/
theorem isOwnerOfSig_not_normalizing :
    isOwnerOfSig stdLib aliceBot "openeuler" "community" "ALICEDEV" pr1 sigCfg
      = (false, none) ∧
    isOwnerOfSig stdLib aliceBot "openeuler" "community" (stdLib.ToLower "ALICEDEV") pr1 sigCfg
      = (true, none) := by
  decide

/-- C10, amended: the identity is lowercased by the caller. When the role lookup succeeds
with a role other than "admin" and "write" and `needCheckSig` is true, `hasPermission` called
with `c` returns what `isOwnerOfSig` returns when called with the lowercased `c`; and an
OWNERS file whose decoded set has the lowercased `c`, being the only OWNERS file and lying in
the only touched directory, authorizes `isOwnerOfSig` called with the lowercased `c`. -/
theorem hasPermission_normalizes_for_isOwnerOfSig (L : GoLib) (bot : robot)
    (org repo c : String) (pr : PullRequestHook) (cfg : botConfig)
    (p : ProjectMemberPermission)
    (hrole : bot.cli.GetUserPermissionsOfRepo org repo (L.ToLower c) = .ok p)
    (hel : ¬ elevated p) :
    hasPermission L bot org repo c true pr cfg =
      isOwnerOfSig L bot org repo (L.ToLower c) pr cfg ∧
    (∀ changes v sigInfoFiles,
      bot.cli.GetPullRequestChanges org repo pr.Number = .ok changes → changes ≠ [] →
      (∀ file ∈ changes, wellShaped cfg file) →
      bot.cacheCli.GetFiles ⟨"gitee", org, repo, pr.BaseRef⟩ ownerFile false = .ok ⟨[v]⟩ →
      bot.cacheCli.GetFiles ⟨"gitee", org, repo, pr.BaseRef⟩ sigInfoFile false
        = .ok sigInfoFiles →
      (∀ file ∈ changes, L.Dir file.Filename = L.PathDir v.Path) →
      L.ToLower c ∈ decodeOwnerFile L v.Content →
      isOwnerOfSig L bot org repo (L.ToLower c) pr cfg = (true, none)) := by
  constructor
  · have hel2 : (p.Permission == "admin" || p.Permission == "write") = false := by
      unfold elevated at hel
      simp only [not_or] at hel
      simp [hel.1, hel.2]
    simp [hasPermission, hrole, hel2]
  · intro changes v sigInfoFiles hch hne hshape hown hsig hdir hin
    obtain ⟨pathes, hmem, heq⟩ := isOwnerOfSig_eq L bot org repo (L.ToLower c) pr cfg
      changes ⟨[v]⟩ sigInfoFiles hch hne hshape hown hsig
    rw [heq]
    have hpne : pathes ≠ [] := by
      obtain ⟨file, hfile⟩ := List.exists_mem_of_ne_nil changes hne
      exact List.ne_nil_of_mem ((hmem _).mpr ⟨file, hfile, rfl⟩)
    have hsel : selectedFiles ⟨[v]⟩ sigInfoFiles = [v] := by simp [selectedFiles]
    have hdec : selectedDecode L ⟨[v]⟩ = decodeOwnerFile L := by simp [selectedDecode]
    have hr := rangeFiles_complete L (selectedDecode L ⟨[v]⟩) (L.ToLower c)
      (selectedFiles ⟨[v]⟩ sigInfoFiles) pathes hpne
      (by
        intro d hd
        obtain ⟨file, hfile, hfd⟩ := (hmem d).mp hd
        exact ⟨v, by simp [hsel], (hdir file hfile).symm.trans hfd⟩)
      (by
        intro w hw _
        rw [hsel, List.mem_singleton] at hw
        rw [hw, hdec]
        exact hin)
    rw [(matchOwners_eq_true L (L.ToLower c) pathes ⟨[v]⟩ sigInfoFiles).mpr hr]

/-! ## Witnesses -/

/-- C1, witness: in the scenario of the specification `isOwnerOfSig` returns true for bob, and
the coverage it implies holds. -/
theorem isOwnerOfSig_true_covered_witness :
    (isOwnerOfSig stdLib scenarioBot "openeuler" "community" "bob" pr1 sigCfg).1 = true ∧
    ∃ changes ownerFiles sigInfoFiles,
      scenarioBot.cli.GetPullRequestChanges "openeuler" "community" pr1.Number
        = .ok changes ∧
      scenarioBot.cacheCli.GetFiles ⟨"gitee", "openeuler", "community", pr1.BaseRef⟩
        ownerFile false = .ok ownerFiles ∧
      scenarioBot.cacheCli.GetFiles ⟨"gitee", "openeuler", "community", pr1.BaseRef⟩
        sigInfoFile false = .ok sigInfoFiles ∧
      changes ≠ [] ∧
      selectedFiles ownerFiles sigInfoFiles ≠ [] ∧
      ∀ file ∈ changes, ∃ v ∈ selectedFiles ownerFiles sigInfoFiles,
        stdLib.PathDir v.Path = stdLib.Dir file.Filename ∧
        "bob" ∈ selectedDecode stdLib ownerFiles v.Content :=
  ⟨by decide,
    isOwnerOfSig_true_covered stdLib scenarioBot "openeuler" "community" "bob" pr1 sigCfg
      (by decide)⟩

/-- C2, witness: bob is listed for sig/group-a and not for sig/group-b; a change touching
both is denied, in either order of the OWNERS files. -/
theorem isOwnerOfSig_veto_witness :
    "bob" ∈ selectedDecode stdLib ⟨[bobOwners, carolOwners]⟩ bobOwners.Content ∧
    "bob" ∉ selectedDecode stdLib ⟨[bobOwners, carolOwners]⟩ carolOwners.Content ∧
    isOwnerOfSig stdLib vetoBot "openeuler" "community" "bob" pr1 sigCfg = (false, none) ∧
    isOwnerOfSig stdLib
      (fixedBot (.ok "read") (.ok ["sig/group-a/OWNERS", "sig/group-b/README.md"])
        (.ok [carolOwners, bobOwners]) (.ok []))
      "openeuler" "community" "bob" pr1 sigCfg = (false, none) :=
  ⟨by decide, by decide,
    isOwnerOfSig_veto stdLib vetoBot "openeuler" "community" "bob" pr1 sigCfg
      [⟨"sig/group-a/OWNERS"⟩, ⟨"sig/group-b/README.md"⟩] ⟨[bobOwners, carolOwners]⟩ ⟨[]⟩
      rfl (by decide) (by decide) rfl rfl (by decide)
      ⟨"sig/group-b/README.md"⟩ (by decide) carolOwners (by decide) (by decide) (by decide),
    isOwnerOfSig_veto stdLib _ "openeuler" "community" "bob" pr1 sigCfg
      [⟨"sig/group-a/OWNERS"⟩, ⟨"sig/group-b/README.md"⟩] ⟨[carolOwners, bobOwners]⟩ ⟨[]⟩
      rfl (by decide) (by decide) rfl rfl (by decide)
      ⟨"sig/group-b/README.md"⟩ (by decide) carolOwners (by decide) (by decide) (by decide)⟩

/-- C3, witness: the scenario of the specification, changed files sig/group-a/OWNERS and
sig/group-a/README.md, an OWNERS file at sig/group-a/OWNERS with maintainers [bob], identity
bob; and the same with an OWNERS file of an untouched directory, not listing bob, in front. -/
theorem isOwnerOfSig_complete_witness :
    isOwnerOfSig stdLib scenarioBot "openeuler" "community" "bob" pr1 sigCfg
      = (true, none) ∧
    isOwnerOfSig stdLib
      (fixedBot (.ok "read") (.ok ["sig/group-a/OWNERS", "sig/group-a/README.md"])
        (.ok [carolOwners, bobOwners]) (.ok []))
      "openeuler" "community" "bob" pr1 sigCfg = (true, none) :=
  ⟨isOwnerOfSig_complete stdLib scenarioBot "openeuler" "community" "bob" pr1 sigCfg
      [⟨"sig/group-a/OWNERS"⟩, ⟨"sig/group-a/README.md"⟩] ⟨[bobOwners]⟩ ⟨[]⟩
      rfl (by decide) (by decide) rfl rfl (by decide) (by decide),
    isOwnerOfSig_complete stdLib _ "openeuler" "community" "bob" pr1 sigCfg
      [⟨"sig/group-a/OWNERS"⟩, ⟨"sig/group-a/README.md"⟩] ⟨[carolOwners, bobOwners]⟩ ⟨[]⟩
      rfl (by decide) (by decide) rfl rfl (by decide) (by decide)⟩

/-- C4, witness: with the role "admin" the answer is `(true, nil)` although the listing and
the content retrieval would fail. -/
theorem hasPermission_elevated_witness :
    elevated ⟨"admin"⟩ ∧
    hasPermission stdLib adminBot "openeuler" "community" "Bob" true pr1 sigCfg
      = (true, none) :=
  ⟨by decide,
    hasPermission_elevated stdLib adminBot "openeuler" "community" "Bob" true pr1 sigCfg
      ⟨"admin"⟩ rfl (by decide)⟩

/-- C5, witness: the OWNERS file of the touched directory does not list bob, the sig-info.yaml
file of the same directory does; the result is the same as without any sig-info.yaml file,
a denial. -/
theorem isOwnerOfSig_owners_precedence_witness :
    "bob" ∈ decodeSigInfoFile stdLib bobSigInfo.Content ∧
    isOwnerOfSig stdLib bothVariantsBot "openeuler" "community" "bob" pr1 sigCfg
      = (false, none) ∧
    isOwnerOfSig stdLib bothVariantsBot "openeuler" "community" "bob" pr1 sigCfg =
      isOwnerOfSig stdLib ownersOnlyBot "openeuler" "community" "bob" pr1 sigCfg :=
  ⟨by decide, by decide,
    isOwnerOfSig_owners_precedence stdLib bothVariantsBot ownersOnlyBot
      "openeuler" "community" "bob" pr1 sigCfg ⟨[carolOwnersA]⟩ ⟨[bobSigInfo]⟩ ⟨[]⟩
      rfl rfl rfl (by decide) rfl rfl⟩

/-- C6, witness: one path with four slashes next to a well-shaped path whose directory bob
owns. -/
theorem isOwnerOfSig_bad_path_witness :
    Count "sig/group-a/x/y/deep.md" '/' > 2 ∧
    isOwnerOfSig stdLib deepPathBot "openeuler" "community" "bob" pr1 sigCfg
      = (false, none) :=
  ⟨by decide,
    isOwnerOfSig_bad_path stdLib deepPathBot "openeuler" "community" "bob" pr1 sigCfg
      [⟨"sig/group-a/OWNERS"⟩, ⟨"sig/group-a/x/y/deep.md"⟩] rfl
      ⟨"sig/group-a/x/y/deep.md"⟩ (by decide) (Or.inr (by decide))⟩

/-- C8, witness: the only OWNERS file of the touched directory is not base64. -/
theorem isOwnerOfSig_corrupt_denies_witness :
    corruptContent stdLib ⟨[corruptOwners]⟩ corruptOwners.Content = true ∧
    isOwnerOfSig stdLib corruptBot "openeuler" "community" "bob" pr1 sigCfg
      = (false, none) :=
  ⟨by decide,
    isOwnerOfSig_corrupt_denies stdLib corruptBot "openeuler" "community" pr1 sigCfg
      [⟨"sig/group-a/README.md"⟩] ⟨[corruptOwners]⟩ ⟨[]⟩
      rfl (by decide) (by decide) rfl rfl
      ⟨"sig/group-a/README.md"⟩ (by decide) corruptOwners (by decide) (by decide) "bob"⟩

/-- C9, witness: the OWNERS file of the only touched directory lists "AliceDev";
`hasPermission` queried with "ALICEDEV" answers as queried with "AliceDev", and the answer
is `(true, nil)`. -/
theorem hasPermission_case_insensitive_witness :
    stdLib.ToLower "AliceDev" = stdLib.ToLower "ALICEDEV" ∧
    listedIn stdLib ⟨[aliceOwners]⟩ aliceOwners.Content "AliceDev" = true ∧
    hasPermission stdLib aliceBot "openeuler" "community" "AliceDev" true pr1 sigCfg =
      hasPermission stdLib aliceBot "openeuler" "community" "ALICEDEV" true pr1 sigCfg ∧
    hasPermission stdLib aliceBot "openeuler" "community" "ALICEDEV" true pr1 sigCfg
      = (true, none) ∧
    Has (decodeOwnerFile stdLib aliceOwners.Content) (stdLib.ToLower "ALICEDEV") = true :=
  ⟨by decide, by decide,
    (hasPermission_case_insensitive stdLib aliceBot "openeuler" "community"
      "AliceDev" "ALICEDEV" true pr1 sigCfg (by decide)).1,
    (hasPermission_case_insensitive stdLib aliceBot "openeuler" "community"
      "AliceDev" "ALICEDEV" true pr1 sigCfg (by decide)).2.1
      ⟨"read"⟩ [⟨"sig/group-a/README.md"⟩] ⟨[aliceOwners]⟩ ⟨[]⟩
      rfl rfl rfl (by decide) (by decide) rfl rfl (by decide) (by decide),
    (hasPermission_case_insensitive stdLib aliceBot "openeuler" "community"
      "AliceDev" "ALICEDEV" true pr1 sigCfg (by decide)).2.2.1
      aliceOwners.Content _ ⟨["AliceDev"], []⟩ rfl (by decide) (Or.inl (by decide))⟩

/-- C10, witness: `hasPermission` queried with "ALICEDEV" hands the lowercased identity to
`isOwnerOfSig`, which the OWNERS file listing "AliceDev" then authorizes. -/
theorem hasPermission_normalizes_for_isOwnerOfSig_witness :
    ¬ elevated ⟨"read"⟩ ∧
    hasPermission stdLib aliceBot "openeuler" "community" "ALICEDEV" true pr1 sigCfg =
      isOwnerOfSig stdLib aliceBot "openeuler" "community" (stdLib.ToLower "ALICEDEV")
        pr1 sigCfg ∧
    isOwnerOfSig stdLib aliceBot "openeuler" "community" (stdLib.ToLower "ALICEDEV")
      pr1 sigCfg = (true, none) :=
  ⟨by decide,
    (hasPermission_normalizes_for_isOwnerOfSig stdLib aliceBot "openeuler" "community"
      "ALICEDEV" pr1 sigCfg ⟨"read"⟩ rfl (by decide)).1,
    (hasPermission_normalizes_for_isOwnerOfSig stdLib aliceBot "openeuler" "community"
      "ALICEDEV" pr1 sigCfg ⟨"read"⟩ rfl (by decide)).2
      [⟨"sig/group-a/README.md"⟩] aliceOwners ⟨[]⟩
      rfl (by decide) (by decide) rfl rfl (by decide) (by decide)⟩

/-! ## Further lemmas -/

theorem splitOnChar_length (sep : Char) (cs : List Char) :
    (splitOnChar sep cs).length = (cs.filter (fun c => c == sep)).length + 1 := by
  induction cs with
  | nil => simp [splitOnChar]
  | cons c cs ih =>
    unfold splitOnChar
    cases hs : splitOnChar sep cs with
    | nil => rw [hs] at ih; simp at ih
    | cons l ls =>
      rw [hs] at ih
      by_cases hc : c = sep
      · simp [hc, List.filter_cons] at ih ⊢
        omega
      · simp [hc, List.filter_cons] at ih ⊢
        omega

theorem segments_eq (s : String) : segments s = Count s '/' + 1 := by
  simp [segments, Count, splitOnChar_length]

/-- What a true result of `isOwnerOfSig` says about the calls it made. -/
theorem isOwnerOfSig_true_inv (L : GoLib) (bot : robot) (org repo commenter : String)
    (pr : PullRequestHook) (cfg : botConfig)
    (h : (isOwnerOfSig L bot org repo commenter pr cfg).1 = true) :
    ∃ changes ownerFiles sigInfoFiles pathes,
      bot.cli.GetPullRequestChanges org repo pr.Number = .ok changes ∧
      changes ≠ [] ∧
      (∀ file ∈ changes, wellShaped cfg file) ∧
      bot.cacheCli.GetFiles ⟨"gitee", org, repo, pr.BaseRef⟩ ownerFile false
        = .ok ownerFiles ∧
      bot.cacheCli.GetFiles ⟨"gitee", org, repo, pr.BaseRef⟩ sigInfoFile false
        = .ok sigInfoFiles ∧
      collectPathes L cfg changes NewString = some pathes ∧
      (∀ d, d ∈ pathes ↔ ∃ file ∈ changes, L.Dir file.Filename = d) ∧
      matchOwners L commenter pathes ownerFiles sigInfoFiles = true := by
  cases hch : bot.cli.GetPullRequestChanges org repo pr.Number with
  | error e => simp [isOwnerOfSig, hch] at h
  | ok changes =>
    by_cases hne : changes = []
    · simp [isOwnerOfSig, hch, hne] at h
    · have hlen : ¬ changes.length = 0 := fun h0 => hne (List.length_eq_zero.mp h0)
      cases hcp : collectPathes L cfg changes NewString with
      | none => simp [isOwnerOfSig, hch, hlen, hcp] at h
      | some pathes =>
        have hshape := collectPathes_wellShaped L cfg changes NewString pathes hcp
        obtain ⟨pathes2, hcp2, hmem⟩ := collectPathes_some L cfg changes NewString hshape
        rw [hcp] at hcp2
        cases hcp2
        cases hown : bot.cacheCli.GetFiles ⟨"gitee", org, repo, pr.BaseRef⟩ ownerFile false with
        | error e => simp [isOwnerOfSig, getFiles, hch, hlen, hcp, hown] at h
        | ok ownerFiles =>
          cases hsig :
              bot.cacheCli.GetFiles ⟨"gitee", org, repo, pr.BaseRef⟩ sigInfoFile false with
          | error e => simp [isOwnerOfSig, getFiles, hch, hlen, hcp, hown, hsig] at h
          | ok sigInfoFiles =>
            refine ⟨changes, ownerFiles, sigInfoFiles, pathes, rfl, hne, hshape, rfl, rfl,
              hcp, ?_, ?_⟩
            · intro d
              rw [hmem d]
              simp [NewString]
            · simpa [isOwnerOfSig, getFiles, hch, hlen, hcp, hown, hsig] using h

/-- The result of `isOwnerOfSig` in terms of the set `collectPathes` returns. -/
theorem isOwnerOfSig_of_collect (L : GoLib) (bot : robot) (org repo commenter : String)
    (pr : PullRequestHook) (cfg : botConfig) (changes : List PullRequestFiles)
    (ownerFiles sigInfoFiles : FilesInfo) (pathes : StringSet)
    (hch : bot.cli.GetPullRequestChanges org repo pr.Number = .ok changes)
    (hne : changes ≠ [])
    (hcp : collectPathes L cfg changes NewString = some pathes)
    (hown : bot.cacheCli.GetFiles ⟨"gitee", org, repo, pr.BaseRef⟩ ownerFile false
      = .ok ownerFiles)
    (hsig : bot.cacheCli.GetFiles ⟨"gitee", org, repo, pr.BaseRef⟩ sigInfoFile false
      = .ok sigInfoFiles) :
    isOwnerOfSig L bot org repo commenter pr cfg =
      (matchOwners L commenter pathes ownerFiles sigInfoFiles, none) := by
  have hlen : ¬ changes.length = 0 := fun h => hne (List.length_eq_zero.mp h)
  simp [isOwnerOfSig, getFiles, hch, hlen, hcp, hown, hsig]

/-! ## The claims, continued -/

/-- C11, the claim fails: the path sig/group-a/OWNERS has three slash-delimited segments,
more than two, and `isOwnerOfSig` returns `(true, nil)` for a change that contains it. -/
theorem isOwnerOfSig_three_segments_pass :
    segments "sig/group-a/OWNERS" > 2 ∧
    isOwnerOfSig stdLib scenarioBot "openeuler" "community" "bob" pr1 sigCfg
      = (true, none) := by
  decide

/-- C11, amended: the depth bound counts separators. When the listing succeeds with a path
that has more than 2 slashes, that is more than 3 slash-delimited segments, `isOwnerOfSig`
returns `(false, nil)`; and whenever `isOwnerOfSig` returns true, every changed-file path
has at most 3 slash-delimited segments. -/
theorem isOwnerOfSig_segment_bound (L : GoLib) (bot : robot) (org repo commenter : String)
    (pr : PullRequestHook) (cfg : botConfig) (changes : List PullRequestFiles)
    (hch : bot.cli.GetPullRequestChanges org repo pr.Number = .ok changes) :
    (∀ file ∈ changes, segments file.Filename > 3 →
      isOwnerOfSig L bot org repo commenter pr cfg = (false, none)) ∧
    ((isOwnerOfSig L bot org repo commenter pr cfg).1 = true →
      ∀ file ∈ changes, segments file.Filename ≤ 3) := by
  constructor
  · intro file hfile hseg
    rw [segments_eq] at hseg
    have hnot : ¬ wellShaped cfg file := by
      rintro ⟨_, h2⟩
      omega
    have hcp := collectPathes_none L cfg changes NewString file hfile hnot
    simp [isOwnerOfSig, hch, hcp]
  · intro h file hfile
    obtain ⟨changes2, _, _, _, hch2, _, hshape, _⟩ :=
      isOwnerOfSig_true_inv L bot org repo commenter pr cfg h
    rw [hch] at hch2
    cases hch2
    have := (hshape file hfile).2
    rw [segments_eq]
    omega

/-- C12. Soft-fail decoding: for a content that is not valid base64, and for a content whose
decoded bytes fail to unmarshal into the schema of the variant, `decodeOwnerFile` and
`decodeSigInfoFile` return the empty identity set. -/
theorem decode_soft_fail (L : GoLib) (content : String) :
    (L.DecodeString content = none →
      decodeOwnerFile L content = NewString ∧ decodeSigInfoFile L content = NewString) ∧
    (∀ c, L.DecodeString content = some c → L.UnmarshalOwners c = none →
      decodeOwnerFile L content = NewString) ∧
    (∀ c, L.DecodeString content = some c → L.UnmarshalSigInfos c = none →
      decodeSigInfoFile L content = NewString) := by
  refine ⟨?_, ?_, ?_⟩
  · intro hd
    simp [decodeOwnerFile, decodeSigInfoFile, hd]
  · intro c hd hu
    simp [decodeOwnerFile, hd, hu]
  · intro c hd hu
    simp [decodeSigInfoFile, hd, hu]

/-- C13. Owners-variant decoding is the lowercased union: when the content decodes and parses
to a document `m`, an identity is a member of `decodeOwnerFile content` exactly when it is
the lowercasing of an entry of `m.Maintainers` or of `m.Committers`; so two documents with
the same entries, in whatever order, multiplicity and split over the two lists, decode to
sets with the same members. -/
theorem decodeOwnerFile_lowercased_union (L : GoLib) (content : String) (c : Bytes)
    (m : OwnersDoc) (hd : L.DecodeString content = some c)
    (hu : L.UnmarshalOwners c = some m) :
    (∀ x, x ∈ decodeOwnerFile L content ↔
      (∃ v ∈ m.Maintainers, L.ToLower v = x) ∨ (∃ v ∈ m.Committers, L.ToLower v = x)) ∧
    (∀ content2 c2 m2, L.DecodeString content2 = some c2 → L.UnmarshalOwners c2 = some m2 →
      (∀ v, v ∈ m.Maintainers ++ m.Committers ↔ v ∈ m2.Maintainers ++ m2.Committers) →
      ∀ x, Has (decodeOwnerFile L content) x = Has (decodeOwnerFile L content2) x) := by
  have key : ∀ (content : String) (c : Bytes) (m : OwnersDoc),
      L.DecodeString content = some c → L.UnmarshalOwners c = some m →
      ∀ x, x ∈ decodeOwnerFile L content ↔ ∃ v ∈ m.Maintainers ++ m.Committers,
        L.ToLower v = x := by
    intro content c m hd hu x
    rw [mem_decodeOwnerFile]
    constructor
    · rintro ⟨c1, m1, hd1, hu1, h⟩
      rw [hd] at hd1; cases hd1
      rw [hu] at hu1; cases hu1
      rcases h with ⟨v, hv, hx⟩ | ⟨v, hv, hx⟩
      · exact ⟨v, List.mem_append.mpr (Or.inl hv), hx⟩
      · exact ⟨v, List.mem_append.mpr (Or.inr hv), hx⟩
    · rintro ⟨v, hv, hx⟩
      refine ⟨c, m, hd, hu, ?_⟩
      rcases List.mem_append.mp hv with h | h
      · exact Or.inl ⟨v, h, hx⟩
      · exact Or.inr ⟨v, h, hx⟩
  constructor
  · intro x
    rw [key content c m hd hu x]
    constructor
    · rintro ⟨v, hv, hx⟩
      rcases List.mem_append.mp hv with h | h
      · exact Or.inl ⟨v, h, hx⟩
      · exact Or.inr ⟨v, h, hx⟩
    · rintro (⟨v, hv, hx⟩ | ⟨v, hv, hx⟩)
      · exact ⟨v, List.mem_append.mpr (Or.inl hv), hx⟩
      · exact ⟨v, List.mem_append.mpr (Or.inr hv), hx⟩
  · intro content2 c2 m2 hd2 hu2 hsame x
    rw [Bool.eq_iff_iff, Has_eq_true, Has_eq_true, key content c m hd hu x,
      key content2 c2 m2 hd2 hu2 x]
    constructor
    · rintro ⟨v, hv, hx⟩
      exact ⟨v, (hsame v).mp hv, hx⟩
    · rintro ⟨v, hv, hx⟩
      exact ⟨v, (hsame v).mpr hv, hx⟩

theorem lowerChar_idem (c : Char) : lowerChar (lowerChar c) = lowerChar c := by
  by_cases h : 65 ≤ c.toNat ∧ c.toNat ≤ 90
  · have hc : c = Char.ofNat c.toNat := (Char.ofNat_toNat c).symm
    obtain ⟨h1, h2⟩ := h
    generalize c.toNat = n at hc h1 h2
    subst hc
    interval_cases n <;> decide
  · have h1 : lowerChar c = c := by simp [lowerChar, h]
    rw [h1, h1]

theorem asciiLower_idem (s : String) : asciiLower (asciiLower s) = asciiLower s := by
  have h : (lowerChar ∘ lowerChar) = lowerChar := funext lowerChar_idem
  simp [asciiLower, h]

/-- C14. Lowercase invariant of decoded sets: `strings.ToLower` leaving an already lowercased
string unchanged, every identity in the set returned by `decodeOwnerFile` and every identity
in the set returned by `decodeSigInfoFile`, for any content, is equal to its own
lowercasing. -/
theorem decode_members_lowercase (L : GoLib)
    (hidem : ∀ s, L.ToLower (L.ToLower s) = L.ToLower s) (content x : String) :
    (x ∈ decodeOwnerFile L content → L.ToLower x = x) ∧
    (x ∈ decodeSigInfoFile L content → L.ToLower x = x) := by
  constructor
  · intro hx
    obtain ⟨c, m, _, _, h⟩ := (mem_decodeOwnerFile L content x).mp hx
    rcases h with ⟨v, _, hv⟩ | ⟨v, _, hv⟩ <;> rw [← hv, hidem]
  · intro hx
    obtain ⟨c, m, _, _, v, _, hv⟩ := (mem_decodeSigInfoFile L content x).mp hx
    rw [← hv, hidem]

/-- C15. Empty change set: when the listing succeeds with zero files, `isOwnerOfSig` returns
`(false, nil)` for every identity, whatever the content retrieval would return. -/
theorem isOwnerOfSig_empty_changes (L : GoLib) (bot : robot) (org repo commenter : String)
    (pr : PullRequestHook) (cfg : botConfig)
    (hch : bot.cli.GetPullRequestChanges org repo pr.Number = .ok []) :
    isOwnerOfSig L bot org repo commenter pr cfg = (false, none) := by
  simp [isOwnerOfSig, hch]

/-- C16. No elevated role and no directory check: when the role lookup succeeds with a role
other than "admin" and "write" and `needCheckSig` is false, `hasPermission` returns
`(false, nil)`, whatever the listing and the content retrieval would return. -/
theorem hasPermission_no_check (L : GoLib) (bot : robot) (org repo commenter : String)
    (pr : PullRequestHook) (cfg : botConfig) (p : ProjectMemberPermission)
    (hrole : bot.cli.GetUserPermissionsOfRepo org repo (L.ToLower commenter) = .ok p)
    (hel : ¬ elevated p) :
    hasPermission L bot org repo commenter false pr cfg = (false, none) := by
  have hel2 : (p.Permission == "admin" || p.Permission == "write") = false := by
    unfold elevated at hel
    simp only [not_or] at hel
    simp [hel.1, hel.2]
  simp [hasPermission, hrole, hel2]

theorem replaceContent_length (files : List File) (i : Nat) (content : String) :
    (replaceContent files i content).length = files.length := by
  induction files generalizing i with
  | nil => simp [replaceContent]
  | cons v rest ih =>
    cases i with
    | zero => simp [replaceContent]
    | succ i => simp [replaceContent, ih]

/-- A file whose directory is not in the set is skipped, whatever its content. -/
theorem rangeFiles_replaceContent (L : GoLib) (decode : String → StringSet)
    (commenter : String) (files : List File) (i : Nat) (content : String)
    (pathes : StringSet)
    (h : ∀ v, files[i]? = some v → L.PathDir v.Path ∉ pathes) :
    rangeFiles L decode commenter (replaceContent files i content) pathes =
      rangeFiles L decode commenter files pathes := by
  induction files generalizing i pathes with
  | nil => simp [replaceContent]
  | cons v rest ih =>
    cases i with
    | zero =>
      have hv : L.PathDir v.Path ∉ pathes := h v (by simp)
      simp only [replaceContent]
      rw [rangeFiles_cons_skip L decode commenter v rest pathes hv,
        rangeFiles_cons_skip L decode commenter ⟨v.Path, content⟩ rest pathes hv]
    | succ i =>
      have hrest : ∀ w, rest[i]? = some w → L.PathDir w.Path ∉ pathes := by
        intro w hw
        exact h w (by simpa using hw)
      simp only [replaceContent]
      by_cases hp : L.PathDir v.Path ∈ pathes
      · by_cases hc : commenter ∈ decode v.Content
        · rw [rangeFiles_cons_cover L decode commenter v _ pathes hp hc,
            rangeFiles_cons_cover L decode commenter v _ pathes hp hc]
          split
          · rfl
          · apply ih
            intro w hw hmem
            exact hrest w hw ((mem_Delete _ _ _).mp hmem).1
        · rw [rangeFiles_cons_veto L decode commenter v _ pathes hp hc,
            rangeFiles_cons_veto L decode commenter v _ pathes hp hc]
      · rw [rangeFiles_cons_skip L decode commenter v _ pathes hp,
          rangeFiles_cons_skip L decode commenter v _ pathes hp]
        exact ih i pathes hrest

/-- C17. Irrelevant ownership files do not influence the decision: replacing the content of a
retrieved OWNERS file and of a retrieved sig-info.yaml file (positions `i` and `j`), each
lying in a directory that is not the parent directory of any changed file, by any other
contents leaves the result of `isOwnerOfSig` unchanged. -/
theorem isOwnerOfSig_irrelevant_content (L : GoLib) (bot bot2 : robot)
    (org repo commenter : String) (pr : PullRequestHook) (cfg : botConfig)
    (i j : Nat) (contentO contentS : String)
    (hcli : bot2.cli = bot.cli)
    (hown2 : bot2.cacheCli.GetFiles ⟨"gitee", org, repo, pr.BaseRef⟩ ownerFile false =
      (bot.cacheCli.GetFiles ⟨"gitee", org, repo, pr.BaseRef⟩ ownerFile false).map
        (fun o => ⟨replaceContent o.Files i contentO⟩))
    (hsig2 : bot2.cacheCli.GetFiles ⟨"gitee", org, repo, pr.BaseRef⟩ sigInfoFile false =
      (bot.cacheCli.GetFiles ⟨"gitee", org, repo, pr.BaseRef⟩ sigInfoFile false).map
        (fun s => ⟨replaceContent s.Files j contentS⟩))
    (hirrO : ∀ o v changes,
      bot.cacheCli.GetFiles ⟨"gitee", org, repo, pr.BaseRef⟩ ownerFile false = .ok o →
      o.Files[i]? = some v →
      bot.cli.GetPullRequestChanges org repo pr.Number = .ok changes →
      ∀ file ∈ changes, L.Dir file.Filename ≠ L.PathDir v.Path)
    (hirrS : ∀ s v changes,
      bot.cacheCli.GetFiles ⟨"gitee", org, repo, pr.BaseRef⟩ sigInfoFile false = .ok s →
      s.Files[j]? = some v →
      bot.cli.GetPullRequestChanges org repo pr.Number = .ok changes →
      ∀ file ∈ changes, L.Dir file.Filename ≠ L.PathDir v.Path) :
    isOwnerOfSig L bot2 org repo commenter pr cfg =
      isOwnerOfSig L bot org repo commenter pr cfg := by
  cases hch : bot.cli.GetPullRequestChanges org repo pr.Number with
  | error e => simp [isOwnerOfSig, hcli, hch]
  | ok changes =>
    by_cases hne : changes = []
    · simp [isOwnerOfSig, hcli, hch, hne]
    · have hlen : ¬ changes.length = 0 := fun h0 => hne (List.length_eq_zero.mp h0)
      cases hcp : collectPathes L cfg changes NewString with
      | none => simp [isOwnerOfSig, hcli, hch, hlen, hcp]
      | some pathes =>
        have hshape := collectPathes_wellShaped L cfg changes NewString pathes hcp
        obtain ⟨pathes2, hcp2, hmem⟩ := collectPathes_some L cfg changes NewString hshape
        rw [hcp] at hcp2
        cases hcp2
        have hmem2 : ∀ d, d ∈ pathes → ∃ file ∈ changes, L.Dir file.Filename = d := by
          intro d hd
          simpa [NewString] using (hmem d).mp hd
        cases hown : bot.cacheCli.GetFiles ⟨"gitee", org, repo, pr.BaseRef⟩ ownerFile false with
        | error e =>
          rw [hown] at hown2
          simp [isOwnerOfSig, getFiles, hcli, hch, hlen, hcp, hown, hown2, Except.map]
        | ok o =>
          rw [hown] at hown2
          cases hsig :
              bot.cacheCli.GetFiles ⟨"gitee", org, repo, pr.BaseRef⟩ sigInfoFile false with
          | error e =>
            rw [hsig] at hsig2
            simp [isOwnerOfSig, getFiles, hcli, hch, hlen, hcp, hown, hown2, hsig, hsig2,
              Except.map]
          | ok sg =>
            rw [hsig] at hsig2
            have hO : ∀ v, o.Files[i]? = some v → L.PathDir v.Path ∉ pathes := by
              intro v hv hin
              obtain ⟨file, hfile, hfd⟩ := hmem2 _ hin
              exact hirrO o v changes hown hv hch file hfile hfd
            have hS : ∀ v, sg.Files[j]? = some v → L.PathDir v.Path ∉ pathes := by
              intro v hv hin
              obtain ⟨file, hfile, hfd⟩ := hmem2 _ hin
              exact hirrS sg v changes hsig hv hch file hfile hfd
            have hm : matchOwners L commenter pathes ⟨replaceContent o.Files i contentO⟩
                ⟨replaceContent sg.Files j contentS⟩ = matchOwners L commenter pathes o sg := by
              rw [Bool.eq_iff_iff, matchOwners_eq_true, matchOwners_eq_true]
              by_cases ho : o.Files.length > 0
              · simp only [selectedFiles, selectedDecode, replaceContent_length, ho, if_true]
                rw [rangeFiles_replaceContent L _ commenter o.Files i contentO pathes hO]
              · simp only [selectedFiles, selectedDecode, replaceContent_length, ho, if_false]
                rw [rangeFiles_replaceContent L _ commenter sg.Files j contentS pathes hS]
            simp [isOwnerOfSig, getFiles, hcli, hch, hlen, hcp, hown, hown2, hsig, hsig2,
              Except.map, hm]

/-- A file whose directory is not in the set can be taken out of the list. -/
theorem rangeFiles_remove_skipped (L : GoLib) (decode : String → StringSet)
    (commenter : String) (pre : List File) (v : File) (post : List File)
    (pathes : StringSet) (h : L.PathDir v.Path ∉ pathes) :
    rangeFiles L decode commenter (pre ++ v :: post) pathes =
      rangeFiles L decode commenter (pre ++ post) pathes := by
  induction pre generalizing pathes with
  | nil => simpa using rangeFiles_cons_skip L decode commenter v post pathes h
  | cons u pre ih =>
    simp only [List.cons_append]
    by_cases hp : L.PathDir u.Path ∈ pathes
    · by_cases hc : commenter ∈ decode u.Content
      · rw [rangeFiles_cons_cover L decode commenter u _ pathes hp hc,
          rangeFiles_cons_cover L decode commenter u _ pathes hp hc]
        split
        · rfl
        · exact ih _ (fun hmem => h ((mem_Delete _ _ _).mp hmem).1)
      · rw [rangeFiles_cons_veto L decode commenter u _ pathes hp hc,
          rangeFiles_cons_veto L decode commenter u _ pathes hp hc]
    · rw [rangeFiles_cons_skip L decode commenter u _ pathes hp,
        rangeFiles_cons_skip L decode commenter u _ pathes hp]
      exact ih _ h

/-- A file whose directory is that of an earlier file can be taken out of the list. -/
theorem rangeFiles_remove_duplicate (L : GoLib) (decode : String → StringSet)
    (commenter : String) (pre : List File) (v : File) (post : List File)
    (pathes : StringSet) (hdup : ∃ u ∈ pre, L.PathDir u.Path = L.PathDir v.Path) :
    rangeFiles L decode commenter (pre ++ v :: post) pathes =
      rangeFiles L decode commenter (pre ++ post) pathes := by
  induction pre generalizing pathes with
  | nil =>
    obtain ⟨u, hu, _⟩ := hdup
    simp at hu
  | cons u pre ih =>
    simp only [List.cons_append]
    have hrest : ∀ q : StringSet, (L.PathDir u.Path ∉ q) →
        rangeFiles L decode commenter (pre ++ v :: post) q =
          rangeFiles L decode commenter (pre ++ post) q := by
      intro q hq
      by_cases hsame : L.PathDir u.Path = L.PathDir v.Path
      · exact rangeFiles_remove_skipped L decode commenter pre v post q (hsame ▸ hq)
      · apply ih
        obtain ⟨w, hw, hwd⟩ := hdup
        rcases List.mem_cons.mp hw with h | h
        · subst h; exact absurd hwd hsame
        · exact ⟨w, h, hwd⟩
    by_cases hp : L.PathDir u.Path ∈ pathes
    · by_cases hc : commenter ∈ decode u.Content
      · rw [rangeFiles_cons_cover L decode commenter u _ pathes hp hc,
          rangeFiles_cons_cover L decode commenter u _ pathes hp hc]
        split
        · rfl
        · exact hrest _ (fun hmem => ((mem_Delete _ _ _).mp hmem).2 rfl)
      · rw [rangeFiles_cons_veto L decode commenter u _ pathes hp hc,
          rangeFiles_cons_veto L decode commenter u _ pathes hp hc]
    · rw [rangeFiles_cons_skip L decode commenter u _ pathes hp,
        rangeFiles_cons_skip L decode commenter u _ pathes hp]
      exact hrest _ hp

/-- C18. First file per directory wins: two robots agree on the listing, all retrievals
succeed and select the same variant, and the selected-variant list of the second robot is
that of the first without one file `v` whose directory equals that of an earlier file of the
list. Then `isOwnerOfSig` returns the same result for both. -/
theorem isOwnerOfSig_first_file_wins (L : GoLib) (bot bot2 : robot)
    (org repo commenter : String) (pr : PullRequestHook) (cfg : botConfig)
    (ownerFiles sigInfoFiles ownerFiles2 sigInfoFiles2 : FilesInfo)
    (pre post : List File) (v : File)
    (hcli : bot2.cli = bot.cli)
    (hown : bot.cacheCli.GetFiles ⟨"gitee", org, repo, pr.BaseRef⟩ ownerFile false
      = .ok ownerFiles)
    (hsig : bot.cacheCli.GetFiles ⟨"gitee", org, repo, pr.BaseRef⟩ sigInfoFile false
      = .ok sigInfoFiles)
    (hown2 : bot2.cacheCli.GetFiles ⟨"gitee", org, repo, pr.BaseRef⟩ ownerFile false
      = .ok ownerFiles2)
    (hsig2 : bot2.cacheCli.GetFiles ⟨"gitee", org, repo, pr.BaseRef⟩ sigInfoFile false
      = .ok sigInfoFiles2)
    (hvar : ownerFiles.Files = [] ↔ ownerFiles2.Files = [])
    (hsel : selectedFiles ownerFiles sigInfoFiles = pre ++ v :: post)
    (hsel2 : selectedFiles ownerFiles2 sigInfoFiles2 = pre ++ post)
    (hdup : ∃ u ∈ pre, L.PathDir u.Path = L.PathDir v.Path) :
    isOwnerOfSig L bot2 org repo commenter pr cfg =
      isOwnerOfSig L bot org repo commenter pr cfg := by
  have hdec : selectedDecode L ownerFiles2 = selectedDecode L ownerFiles := by
    unfold selectedDecode
    by_cases ho : ownerFiles.Files = []
    · have ho2 := hvar.mp ho
      simp [ho, ho2]
    · have ho2 : ownerFiles2.Files ≠ [] := fun h => ho (hvar.mpr h)
      simp [List.length_pos.mpr ho, List.length_pos.mpr ho2]
  have hm : ∀ pathes, matchOwners L commenter pathes ownerFiles2 sigInfoFiles2 =
      matchOwners L commenter pathes ownerFiles sigInfoFiles := by
    intro pathes
    rw [Bool.eq_iff_iff, matchOwners_eq_true, matchOwners_eq_true, hdec, hsel, hsel2,
      rangeFiles_remove_duplicate L _ commenter pre v post pathes hdup]
  simp only [isOwnerOfSig, getFiles, hcli, hown, hown2, hsig, hsig2, hm]

/-- Fewer directories to cover: a loop that returns true on a set returns true on every
non-empty subset. -/
theorem rangeFiles_mono (L : GoLib) (decode : String → StringSet) (commenter : String)
    (files : List File) (pathes pathes2 : StringSet)
    (hsub : ∀ d ∈ pathes2, d ∈ pathes) (hne : pathes2 ≠ [])
    (h : rangeFiles L decode commenter files pathes = .returned true) :
    rangeFiles L decode commenter files pathes2 = .returned true := by
  induction files generalizing pathes pathes2 with
  | nil => simp [rangeFiles] at h
  | cons v rest ih =>
    by_cases hp : L.PathDir v.Path ∈ pathes
    · by_cases hc : commenter ∈ decode v.Content
      · rw [rangeFiles_cons_cover L decode commenter v rest pathes hp hc] at h
        by_cases hp2 : L.PathDir v.Path ∈ pathes2
        · rw [rangeFiles_cons_cover L decode commenter v rest pathes2 hp2 hc]
          by_cases hem : Delete pathes2 (L.PathDir v.Path) = []
          · rw [if_pos hem]
          · rw [if_neg hem]
            have hsub2 : ∀ d ∈ Delete pathes2 (L.PathDir v.Path),
                d ∈ Delete pathes (L.PathDir v.Path) := by
              intro d hd
              obtain ⟨h1, h2⟩ := (mem_Delete _ _ _).mp hd
              exact (mem_Delete _ _ _).mpr ⟨hsub d h1, h2⟩
            have hne1 : Delete pathes (L.PathDir v.Path) ≠ [] := by
              obtain ⟨d, hd⟩ := List.exists_mem_of_ne_nil _ hem
              exact List.ne_nil_of_mem (hsub2 d hd)
            rw [if_neg hne1] at h
            exact ih _ _ hsub2 hem h
        · rw [rangeFiles_cons_skip L decode commenter v rest pathes2 hp2]
          have hsub2 : ∀ d ∈ pathes2, d ∈ Delete pathes (L.PathDir v.Path) := by
            intro d hd
            refine (mem_Delete _ _ _).mpr ⟨hsub d hd, ?_⟩
            intro heq
            exact hp2 (heq ▸ hd)
          have hne1 : Delete pathes (L.PathDir v.Path) ≠ [] := by
            obtain ⟨d, hd⟩ := List.exists_mem_of_ne_nil _ hne
            exact List.ne_nil_of_mem (hsub2 d hd)
          rw [if_neg hne1] at h
          exact ih _ _ hsub2 hne h
      · rw [rangeFiles_cons_veto L decode commenter v rest pathes hp hc] at h
        simp at h
    · have hp2 : L.PathDir v.Path ∉ pathes2 := fun h2 => hp (hsub _ h2)
      rw [rangeFiles_cons_skip L decode commenter v rest pathes hp] at h
      rw [rangeFiles_cons_skip L decode commenter v rest pathes2 hp2]
      exact ih _ _ hsub hne h

/-- C19. Authorization is downward closed in the change set: for a fixed identity,
configuration and content retrieval, if `isOwnerOfSig` returns true for the changed-file list
`changes`, it returns `(true, nil)` for every non-empty list made of files of `changes`, in
particular for every non-empty sub-list. -/
theorem isOwnerOfSig_downward_closed (L : GoLib) (bot bot2 : robot)
    (org repo commenter : String) (pr : PullRequestHook) (cfg : botConfig)
    (changes changes2 : List PullRequestFiles)
    (hch : bot.cli.GetPullRequestChanges org repo pr.Number = .ok changes)
    (htrue : (isOwnerOfSig L bot org repo commenter pr cfg).1 = true)
    (hcache : bot2.cacheCli = bot.cacheCli)
    (hch2 : bot2.cli.GetPullRequestChanges org repo pr.Number = .ok changes2)
    (hne2 : changes2 ≠ [])
    (hsub : ∀ file ∈ changes2, file ∈ changes) :
    isOwnerOfSig L bot2 org repo commenter pr cfg = (true, none) := by
  obtain ⟨changes1, ownerFiles, sigInfoFiles, pathes, hch1, _, hshape, hown, hsig, _, hmem,
    hm⟩ := isOwnerOfSig_true_inv L bot org repo commenter pr cfg htrue
  rw [hch] at hch1
  cases hch1
  have hshape2 : ∀ file ∈ changes2, wellShaped cfg file := fun file hfile =>
    hshape file (hsub file hfile)
  obtain ⟨pathes2, hmem2, heq⟩ := isOwnerOfSig_eq L bot2 org repo commenter pr cfg
    changes2 ownerFiles sigInfoFiles hch2 hne2 hshape2 (hcache ▸ hown) (hcache ▸ hsig)
  rw [heq]
  have hpne : pathes2 ≠ [] := by
    obtain ⟨file, hfile⟩ := List.exists_mem_of_ne_nil changes2 hne2
    exact List.ne_nil_of_mem ((hmem2 _).mpr ⟨file, hfile, rfl⟩)
  have hps : ∀ d ∈ pathes2, d ∈ pathes := by
    intro d hd
    obtain ⟨file, hfile, hfd⟩ := (hmem2 d).mp hd
    exact (hmem d).mpr ⟨file, hsub file hfile, hfd⟩
  have hr := rangeFiles_mono L _ commenter _ pathes pathes2 hps hpne
    ((matchOwners_eq_true L commenter pathes ownerFiles sigInfoFiles).mp hm)
  rw [(matchOwners_eq_true L commenter pathes2 ownerFiles sigInfoFiles).mpr hr]

/-! ## Witnesses, continued -/

/-- C11, witness: a listed path with five segments is denied. -/
theorem isOwnerOfSig_segment_bound_witness :
    segments "sig/group-a/x/y/deep.md" > 3 ∧
    isOwnerOfSig stdLib deepPathBot "openeuler" "community" "bob" pr1 sigCfg
      = (false, none) :=
  ⟨by decide,
    (isOwnerOfSig_segment_bound stdLib deepPathBot "openeuler" "community" "bob" pr1 sigCfg
      [⟨"sig/group-a/OWNERS"⟩, ⟨"sig/group-a/x/y/deep.md"⟩] rfl).1
      ⟨"sig/group-a/x/y/deep.md"⟩ (by decide) (by decide)⟩

/-- C12, witness: a content that is not base64, and a content whose decoded bytes are the
unterminated flow mapping `maintainers: {`. -/
theorem decode_soft_fail_witness :
    stdLib.DecodeString corruptOwners.Content = none ∧
    (decodeOwnerFile stdLib corruptOwners.Content = NewString ∧
      decodeSigInfoFile stdLib corruptOwners.Content = NewString) ∧
    decodeOwnerFile stdLib unparsableOwners.Content = NewString :=
  ⟨by decide,
    (decode_soft_fail stdLib corruptOwners.Content).1 (by decide),
    (decode_soft_fail stdLib unparsableOwners.Content).2.1 _ rfl (by decide)⟩

/-- C13, witness: maintainers [bob] with committers [carol], against a document whose
committers are [carol, bob, carol]. -/
theorem decodeOwnerFile_lowercased_union_witness :
    ("carol" ∈ decodeOwnerFile stdLib bobCarolOwners.Content ↔
      (∃ v ∈ ["bob"], stdLib.ToLower v = "carol") ∨
      (∃ v ∈ ["carol"], stdLib.ToLower v = "carol")) ∧
    Has (decodeOwnerFile stdLib bobCarolOwners.Content) "carol" =
      Has (decodeOwnerFile stdLib "Y29tbWl0dGVyczoKLSBjYXJvbAotIGJvYgotIGNhcm9sCg==") "carol" :=
  ⟨(decodeOwnerFile_lowercased_union stdLib bobCarolOwners.Content _ ⟨["bob"], ["carol"]⟩
      rfl (by decide)).1 "carol",
    (decodeOwnerFile_lowercased_union stdLib bobCarolOwners.Content _ ⟨["bob"], ["carol"]⟩
      rfl (by decide)).2 "Y29tbWl0dGVyczoKLSBjYXJvbAotIGJvYgotIGNhcm9sCg==" _
      ⟨[], ["carol", "bob", "carol"]⟩ rfl (by decide)
      (by
        intro v
        simp only [List.nil_append, List.mem_append, List.mem_cons, List.mem_singleton,
          List.not_mem_nil, or_false]
        tauto)
      "carol"⟩

/-- C14, witness: the member decoded from the entry AliceDev. -/
theorem decode_members_lowercase_witness :
    "alicedev" ∈ decodeOwnerFile stdLib aliceOwners.Content ∧
    stdLib.ToLower "alicedev" = "alicedev" :=
  ⟨by decide,
    (decode_members_lowercase stdLib asciiLower_idem aliceOwners.Content "alicedev").1
      (by decide)⟩

/-- C15, witness: an empty listing while the content retrieval would fail. -/
theorem isOwnerOfSig_empty_changes_witness :
    isOwnerOfSig stdLib emptyChangeBot "openeuler" "community" "bob" pr1 sigCfg
      = (false, none) :=
  isOwnerOfSig_empty_changes stdLib emptyChangeBot "openeuler" "community" "bob" pr1 sigCfg
    rfl

/-- C16, witness: the role "read" without directory check, while the listing and the content
retrieval would fail. -/
theorem hasPermission_no_check_witness :
    ¬ elevated ⟨"read"⟩ ∧
    hasPermission stdLib readerBot "openeuler" "community" "Bob" false pr1 sigCfg
      = (false, none) :=
  ⟨by decide,
    hasPermission_no_check stdLib readerBot "openeuler" "community" "Bob" pr1 sigCfg
      ⟨"read"⟩ rfl (by decide)⟩

/-- C17, witness: the OWNERS file of the untouched directory sig/group-b gets a corrupt
content; the change to sig/group-a is authorized for bob as before. -/
theorem isOwnerOfSig_irrelevant_content_witness :
    isOwnerOfSig stdLib
      (fixedBot (.ok "read") (.ok ["sig/group-a/OWNERS", "sig/group-a/README.md"])
        (.ok [bobOwners, ⟨"sig/group-b/OWNERS", "%%%corrupt%%%"⟩]) (.ok []))
      "openeuler" "community" "bob" pr1 sigCfg =
      isOwnerOfSig stdLib untouchedBot "openeuler" "community" "bob" pr1 sigCfg ∧
    isOwnerOfSig stdLib untouchedBot "openeuler" "community" "bob" pr1 sigCfg
      = (true, none) :=
  ⟨isOwnerOfSig_irrelevant_content stdLib untouchedBot _ "openeuler" "community" "bob" pr1
      sigCfg 1 0 "%%%corrupt%%%" "" rfl rfl rfl
      (by
        intro o v changes ho hv hc
        obtain rfl : o = ⟨[bobOwners, carolOwners]⟩ := (Except.ok.inj ho).symm
        obtain rfl : v = carolOwners := (Option.some.inj hv).symm
        obtain rfl : changes = [⟨"sig/group-a/OWNERS"⟩, ⟨"sig/group-a/README.md"⟩] :=
          (Except.ok.inj hc).symm
        decide)
      (by
        intro s v changes hs hv _
        obtain rfl : s = ⟨[]⟩ := (Except.ok.inj hs).symm
        exact Option.noConfusion (hv : (none : Option File) = some v)),
    by decide⟩

/-- C18, witness: a second OWNERS file of sig/group-a that does not list bob comes after one
that does; the answer is the one without the second file, an authorization. -/
theorem isOwnerOfSig_first_file_wins_witness :
    "bob" ∉ decodeOwnerFile stdLib carolOwnersA.Content ∧
    isOwnerOfSig stdLib firstOnlyBot "openeuler" "community" "bob" pr1 sigCfg =
      isOwnerOfSig stdLib duplicateBot "openeuler" "community" "bob" pr1 sigCfg ∧
    isOwnerOfSig stdLib duplicateBot "openeuler" "community" "bob" pr1 sigCfg
      = (true, none) :=
  ⟨by decide,
    isOwnerOfSig_first_file_wins stdLib duplicateBot firstOnlyBot "openeuler" "community"
      "bob" pr1 sigCfg ⟨[bobOwners, carolOwnersA]⟩ ⟨[]⟩ ⟨[bobOwners]⟩ ⟨[]⟩
      [bobOwners] [] carolOwnersA rfl rfl rfl rfl rfl (by decide) (by decide) (by decide)
      (by decide),
    by decide⟩

/-- C19, witness: a change to sig/group-a and sig/group-b is authorized for bob, and so is
the change to sig/group-b alone. -/
theorem isOwnerOfSig_downward_closed_witness :
    (isOwnerOfSig stdLib twoDirsBot "openeuler" "community" "bob" pr1 sigCfg).1 = true ∧
    isOwnerOfSig stdLib oneDirBot "openeuler" "community" "bob" pr1 sigCfg
      = (true, none) :=
  ⟨by decide,
    isOwnerOfSig_downward_closed stdLib twoDirsBot oneDirBot "openeuler" "community" "bob"
      pr1 sigCfg [⟨"sig/group-a/OWNERS"⟩, ⟨"sig/group-b/README.md"⟩]
      [⟨"sig/group-b/README.md"⟩] rfl (by decide) rfl rfl (by decide) (by decide)⟩

end Permission
